import Mathlib

/-!
Verification of the finance-tracker repository (src/app.py, src/import.py).

The development shallowly embeds the repository's core logic:

* `parse_decimal`   - the locale-tolerant amount parser (identical in
  src/app.py lines 68-98 and src/import.py lines 19-49), modelled over
  `List Char`.  Python `Decimal` values are modelled by `Dec`
  (sign, coefficient, exponent); `Decimal(s).quantize(Decimal("0.01"))`
  is `quantize2`, which rounds half-to-even and fails (InvalidOperation)
  when the resulting coefficient exceeds the 28-digit context precision.
  The `Decimal` string constructor is modelled for finite numeric
  literals (optional sign, digits, optional point, optional exponent,
  surrounding whitespace); special forms (NaN, Infinity, underscores)
  are outside the monetary domain of this program and are not modelled.
* `parse_date` / `parse_date_ddmmyyyy` - the two date parsers
  (src/app.py lines 101-107, src/import.py lines 12-16), with
  `datetime.strptime` for the formats Y-m-d and d.m.Y modelled
  faithfully to CPython's `_strptime` (a 4-digit year, 1-2 digit month
  and day fields, full-string match, then calendar validation).
* the observation store - a `List Point` of
  (account id, date, balance, created) rows; dates are naturals ordered
  like the calendar, balances are integer cents.
* `build_account_series`, `build_stacked_series`, `current_balance`,
  `upsert` (the body of `balance_add` and of the import row upsert),
  `account_delete`, and the CSV import row loop `import_csv`.
-/

/-! ## Characters, Python `str.strip`, `str.rfind`, digit strings -/

/-- The whitespace characters removed by Python `str.strip()` (ASCII part). -/
def isPySpace (c : Char) : Bool :=
  c = ' ' || c = '\t' || c = '\n' || c = '\r' || c = '\x0b' || c = '\x0c'

/-- Python `str.strip()`: drop leading and trailing whitespace. -/
def pyStrip (l : List Char) : List Char :=
  ((l.dropWhile isPySpace).reverse.dropWhile isPySpace).reverse

/-- Python `str.rfind(ch)`: highest index of `ch`, `-1` if absent. -/
def rfind (ch : Char) : List Char → Int
  | [] => -1
  | c :: cs =>
    let r := rfind ch cs
    if r ≥ 0 then r + 1 else if c = ch then 0 else -1

/-- Numeric value of a digit character. -/
def digitVal (c : Char) : Nat := c.toNat - 48

/-- The character for a digit value. -/
def charOfDigit (d : Nat) : Char := Char.ofNat (48 + d)

/-- Value of a big-endian string of digit characters. -/
def digitsVal (l : List Char) : Nat :=
  l.foldl (fun a c => 10 * a + digitVal c) 0

/-- Little-endian decimal digits of `n`, computed with explicit fuel so
that the definition is structural (and hence kernel-reducible). -/
def digitsRev (fuel n : Nat) : List Nat :=
  match fuel with
  | 0 => []
  | f + 1 => if n = 0 then [] else n % 10 :: digitsRev f (n / 10)

/-- Big-endian decimal digit characters of a natural number (no leading
zeros except for `0` itself), as produced by Python `str` of an `int`. -/
def natDigits (n : Nat) : List Char :=
  if n = 0 then ['0'] else (digitsRev n n).reverse.map charOfDigit

/-- Number of decimal digits of a natural number (1 for 0). -/
def numDigits (n : Nat) : Nat := (natDigits n).length

/-! ## Python `Decimal` model -/

/-- A finite Python `Decimal`: sign, coefficient and exponent.  The value
denoted is `(-1)^neg * coeff * 10^exp`. -/
structure Dec where
  neg : Bool
  coeff : Nat
  exp : Int
deriving DecidableEq, Repr

/-- Optional exponent tail of a decimal literal: empty, or `e`/`E`
followed by an optionally signed digit run. -/
def parseExpDigits (l : List Char) (neg : Bool) : Option Int :=
  if l ≠ [] ∧ (∀ c ∈ l, c.isDigit = true) then
    some (if neg then -(digitsVal l : Int) else (digitsVal l : Int))
  else none

/-- Parse the exponent part of a `Decimal` literal. -/
def parseExpPart : List Char → Option Int
  | [] => some 0
  | c :: rest =>
    if c = 'e' ∨ c = 'E' then
      match rest with
      | '-' :: r => parseExpDigits r true
      | '+' :: r => parseExpDigits r false
      | r => parseExpDigits r false
    else none

/-- Unsigned part of a `Decimal` numeric literal: digits with an
optional decimal point (at least one digit overall), plus an optional
exponent part. -/
def parseDecBody (neg : Bool) (m : List Char) : Option Dec :=
  let ip := m.takeWhile Char.isDigit
  let r1 := m.dropWhile Char.isDigit
  if r1.head? = some '.' then
    let r2 := r1.tail
    let fp := r2.takeWhile Char.isDigit
    let r3 := r2.dropWhile Char.isDigit
    if ip.length + fp.length = 0 then none
    else
      match parseExpPart r3 with
      | some e => some ⟨neg, digitsVal (ip ++ fp), e - fp.length⟩
      | none => none
  else
    if ip.length = 0 then none
    else
      match parseExpPart r1 with
      | some e => some ⟨neg, digitsVal ip, e⟩
      | none => none

/-- Core grammar of a finite `Decimal` numeric literal (after whitespace
removal): optional sign, then the unsigned body. -/
def parseDecCore (l : List Char) : Option Dec :=
  if l.head? = some '-' then parseDecBody true l.tail
  else if l.head? = some '+' then parseDecBody false l.tail
  else parseDecBody false l

/-- The Python `Decimal(str)` constructor strips surrounding whitespace
before applying the numeric-literal grammar. -/
def parseDecimalLit (l : List Char) : Option Dec :=
  parseDecCore (pyStrip l)

/-- Divide `c` by `p` (a power of ten) rounding half-to-even, the
default rounding of `Decimal.quantize`. -/
def roundHalfEven (c p : Nat) : Nat :=
  let q := c / p
  let r := c % p
  if 2 * r > p then q + 1
  else if 2 * r < p then q
  else if q % 2 = 1 then q + 1 else q

/-- `Decimal.quantize(Decimal("0.01"))` under the default context:
rescale to exponent `-2` rounding half-to-even; `InvalidOperation`
(modelled as `none`) when the resulting coefficient exceeds the
context precision of 28 digits. -/
def quantize2 (d : Dec) : Option Dec :=
  let c :=
    if -2 ≤ d.exp then d.coeff * 10 ^ (d.exp + 2).toNat
    else roundHalfEven d.coeff (10 ^ (-2 - d.exp).toNat)
  if numDigits c ≤ 28 then some ⟨d.neg, c, -2⟩ else none

/-- Replace every comma by a dot (Python `s.replace(",", ".")`). -/
def commaToDot (l : List Char) : List Char :=
  l.map fun c => if c = ',' then '.' else c

/-- The separator-normalisation phase of `parse_decimal`
(src/app.py lines 76-93): strip, reject empty input, then if both
separators occur treat the rightmost as decimal (`rfind` comparison),
else turn a lone comma into a dot. -/
def normalizeAmount (value : String) : Option (List Char) :=
  let s := pyStrip value.data
  if s.isEmpty then none
  else if s.contains ',' && s.contains '.' then
    if rfind ',' s > rfind '.' s then
      some (commaToDot (s.filter fun c => c != '.'))
    else
      some (s.filter fun c => c != ',')
  else if s.contains ',' && !s.contains '.' then
    some (commaToDot s)
  else
    some s

/-- `parse_decimal` (src/app.py lines 68-98, src/import.py lines 19-49):
normalise separators, parse as `Decimal`, quantize to two fractional
digits.  `none` models every raised `ValueError`. -/
def parse_decimal (value : String) : Option Dec :=
  match normalizeAmount value with
  | none => none
  | some s =>
    match parseDecimalLit s with
    | none => none
    | some d => quantize2 d

/-- Python `str(Decimal)` for the plain-notation case (exponent at most
zero and adjusted exponent above `-7`), which covers every value
produced by `quantize2`. -/
def decStr (d : Dec) : List Char :=
  let ds := natDigits d.coeff
  let left : Int := d.exp + ds.length
  let body :=
    if d.exp = 0 then ds
    else if 0 < left then ds.take left.toNat ++ '.' :: ds.drop left.toNat
    else '0' :: '.' :: (List.replicate (-left).toNat '0' ++ ds)
  if d.neg then '-' :: body else body

/-- Value of a little-endian digit list. -/
def natValRev (l : List Nat) : Nat := l.foldr (fun d a => a * 10 + d) 0

/-- The claim's reading of the both-separators rule: the separator
occurring rightmost in the string is the decimal separator; every
occurrence of the other one is stripped, and the rightmost separator is
read as a decimal point. -/
def claimTransform (l : List Char) : List Char :=
  let sep : Char := if rfind ',' l > rfind '.' l then ',' else '.'
  let other : Char := if sep = ',' then '.' else ','
  (l.filter fun c => c != other).map fun c => if c = sep then '.' else c

/-! ## Dates -/

/-- A calendar date (year, month, day). -/
structure Ymd where
  y : Nat
  m : Nat
  d : Nat
deriving DecidableEq, Repr

/-- Gregorian leap year, as in Python's `calendar`/`datetime`. -/
def isLeap (y : Nat) : Bool :=
  y % 4 == 0 && (!(y % 100 == 0) || y % 400 == 0)

/-- Days in a month, as validated by `datetime.date`. -/
def daysInMonth (y m : Nat) : Nat :=
  if m = 2 then (if isLeap y then 29 else 28)
  else if m = 4 ∨ m = 6 ∨ m = 9 ∨ m = 11 then 30
  else 31

/-- The validity check performed by the `datetime.date` constructor
(with `y ≤ 9999` already guaranteed by a 4-digit year field). -/
def validYmd (y m d : Nat) : Prop :=
  1 ≤ y ∧ 1 ≤ m ∧ m ≤ 12 ∧ 1 ≤ d ∧ d ≤ daysInMonth y m

/-- Consume one expected literal character. -/
def expectChar (c : Char) (l : List Char) : Option (List Char) :=
  match l with
  | x :: xs => if x = c then some xs else none
  | [] => none

/-- The segmentation performed by the compiled `_strptime` regular
expression for a three-field format `X sep X sep X` built from digit
fields: three maximal digit runs separated by the literal separator,
with nothing left over.  (With a non-digit literal after each digit
field, the regex's greedy matching consumes exactly the maximal run.) -/
def scan3 (sepc : Char) (l : List Char) : Option (List Char × List Char × List Char) :=
  (expectChar sepc (l.dropWhile Char.isDigit)).bind fun r2 =>
    (expectChar sepc (r2.dropWhile Char.isDigit)).bind fun r4 =>
      if r4.dropWhile Char.isDigit = [] then
        some (l.takeWhile Char.isDigit, r2.takeWhile Char.isDigit, r4.takeWhile Char.isDigit)
      else none

/-- `datetime.strptime(value, "%Y-%m-%d").date()` as executed by
CPython's `_strptime`: a 4-digit year, `-`, a 1-2 digit month in 1..12,
`-`, a 1-2 digit day in 1..31, end of string, then calendar validation
by `datetime.date` (year at least 1, day within the month). -/
def strptimeYmd (l : List Char) : Option Ymd :=
  (scan3 '-' l).bind fun t =>
    if t.1.length = 4 ∧ (t.2.1.length = 1 ∨ t.2.1.length = 2) ∧
        (t.2.2.length = 1 ∨ t.2.2.length = 2) ∧
        1 ≤ digitsVal t.2.1 ∧ digitsVal t.2.1 ≤ 12 ∧
        1 ≤ digitsVal t.2.2 ∧ digitsVal t.2.2 ≤ 31 ∧
        1 ≤ digitsVal t.1 ∧
        digitsVal t.2.2 ≤ daysInMonth (digitsVal t.1) (digitsVal t.2.1) then
      some ⟨digitsVal t.1, digitsVal t.2.1, digitsVal t.2.2⟩
    else none

/-- `datetime.strptime(value, "%d.%m.%Y").date()`, same conventions as
`strptimeYmd` with the day-first layout. -/
def strptimeDmy (l : List Char) : Option Ymd :=
  (scan3 '.' l).bind fun t =>
    if t.2.2.length = 4 ∧ (t.2.1.length = 1 ∨ t.2.1.length = 2) ∧
        (t.1.length = 1 ∨ t.1.length = 2) ∧
        1 ≤ digitsVal t.2.1 ∧ digitsVal t.2.1 ≤ 12 ∧
        1 ≤ digitsVal t.1 ∧ digitsVal t.1 ≤ 31 ∧
        1 ≤ digitsVal t.2.2 ∧
        digitsVal t.1 ≤ daysInMonth (digitsVal t.2.2) (digitsVal t.2.1) then
      some ⟨digitsVal t.2.2, digitsVal t.2.1, digitsVal t.1⟩
    else none

/-- `parse_date` (src/app.py lines 101-107): empty input defaults to
today's date, otherwise strict `%Y-%m-%d` parsing; `none` models the
raised `ValueError`. -/
def parse_date (today : Ymd) (value : String) : Option Ymd :=
  if value = "" then some today else strptimeYmd value.data

/-- `parse_date_ddmmyyyy` (src/import.py lines 12-16): strip, error on
empty, otherwise strict `%d.%m.%Y` parsing. -/
def parse_date_ddmmyyyy (value : String) : Option Ymd :=
  if pyStrip value.data = [] then none else strptimeDmy (pyStrip value.data)

/-- Claim-side grammar (spec wording, lenient as `strptime` is): a
4-digit year, a 1-2 digit month, a 1-2 digit day in `%Y-%m-%d` layout,
denoting the valid calendar date (y, m, d). -/
def LenientYmd (l : List Char) (y m d : Nat) : Prop :=
  ∃ ys ms ds : List Char,
    l = ys ++ '-' :: (ms ++ '-' :: ds) ∧
    (∀ c ∈ ys, c.isDigit = true) ∧ ys.length = 4 ∧
    (∀ c ∈ ms, c.isDigit = true) ∧ 1 ≤ ms.length ∧ ms.length ≤ 2 ∧
    (∀ c ∈ ds, c.isDigit = true) ∧ 1 ≤ ds.length ∧ ds.length ≤ 2 ∧
    digitsVal ys = y ∧ digitsVal ms = m ∧ digitsVal ds = d ∧
    validYmd y m d

/-- Claim-side grammar for the day-first `%d.%m.%Y` layout. -/
def LenientDmy (l : List Char) (y m d : Nat) : Prop :=
  ∃ ds ms ys : List Char,
    l = ds ++ '.' :: (ms ++ '.' :: ys) ∧
    (∀ c ∈ ds, c.isDigit = true) ∧ 1 ≤ ds.length ∧ ds.length ≤ 2 ∧
    (∀ c ∈ ms, c.isDigit = true) ∧ 1 ≤ ms.length ∧ ms.length ≤ 2 ∧
    (∀ c ∈ ys, c.isDigit = true) ∧ ys.length = 4 ∧
    digitsVal ys = y ∧ digitsVal ms = m ∧ digitsVal ds = d ∧
    validYmd y m d

/-- Claim-side checker for the strict, zero-padded `YYYY-MM-DD` shape
(exactly 4-2-2 digits) denoting a valid calendar date. -/
def strictIsoOk (l : List Char) : Bool :=
  match l with
  | [c1, c2, c3, c4, h1, c5, c6, h2, c7, c8] =>
    h1 == '-' && h2 == '-' &&
    ([c1, c2, c3, c4, c5, c6, c7, c8].all Char.isDigit) &&
    (decide (1 ≤ digitsVal [c1, c2, c3, c4]) &&
     decide (1 ≤ digitsVal [c5, c6]) && decide (digitsVal [c5, c6] ≤ 12) &&
     decide (1 ≤ digitsVal [c7, c8]) &&
     decide (digitsVal [c7, c8] ≤ daysInMonth (digitsVal [c1, c2, c3, c4]) (digitsVal [c5, c6])))
  | _ => false

/-! ## The observation store -/

/-- One `BalancePoint` row: account id, observation date (a natural
number ordered like the calendar, e.g. the key y*10000+m*100+d),
balance in integer cents, and a creation stamp (`created_at`). -/
structure Point where
  acct : Nat
  date : Nat
  bal : Int
  created : Nat
deriving DecidableEq, Repr

/-- Two rows differ in their (account, date) key. -/
def keyDistinct (p q : Point) : Prop :=
  ¬(p.acct = q.acct ∧ p.date = q.date)

instance : DecidableRel keyDistinct := fun p q =>
  decidable_of_iff (¬(p.acct = q.acct ∧ p.date = q.date)) Iff.rfl

/-- The `uq_account_date` unique constraint: at most one observation
per (account, date) pair. -/
def KeyInv (st : List Point) : Prop :=
  st.Pairwise keyDistinct

instance (st : List Point) : Decidable (KeyInv st) :=
  List.instDecidablePairwise st

/-- `ORDER BY as_of_date ASC`. -/
def sortByDate (l : List Point) : List Point :=
  l.insertionSort fun p q => p.date ≤ q.date

instance : IsTotal Point fun p q => p.date ≤ q.date :=
  ⟨fun p q => Nat.le_total p.date q.date⟩

instance : IsTrans Point fun p q => p.date ≤ q.date :=
  ⟨fun _ _ _ h1 h2 => Nat.le_trans h1 h2⟩

/-- `sorted({row[1] for row in all_points})` in `build_stacked_series`:
the ascending list of distinct observation dates. -/
def sortedDates (st : List Point) : List Nat :=
  ((st.map Point.date).dedup).insertionSort (· ≤ ·)

/-- The `per_account` dictionary of `build_stacked_series`, looked up at
(account, date): the points are enumerated in date order and each
assignment overwrites, so the last matching row wins. -/
def dictLookup (st : List Point) (a d : Nat) : Option Int :=
  (((sortByDate st).filter fun p => p.acct == a && p.date == d).getLast?).map Point.bal

/-- The carry-forward loop of `build_stacked_series` (lines 153-160):
walk the axis keeping the last known value, replacing it whenever the
account has an observation on the axis date. -/
def carry (f : Nat → Option Int) : List Nat → Int → List Int
  | [], _ => []
  | d :: ds, last =>
    let v := (f d).getD last
    v :: carry f ds v

/-- `build_stacked_series` (src/app.py lines 129-167): the shared sorted
date axis over all points in the store, and one carry-forward series
per requested account (dataset labels are the account ids here; the
account-name labels attached in the returned dicts carry no data). -/
def build_stacked_series (st : List Point) (accountIds : List Nat) : List Nat × List (List Int) :=
  (sortedDates st, accountIds.map fun a => carry (dictLookup st a) (sortedDates st) 0)

/-- `build_account_series` (src/app.py lines 114-126): that account's
points ordered by date ascending, projected to labels and values. -/
def build_account_series (st : List Point) (a : Nat) : List Nat × List Int :=
  ((sortByDate (st.filter fun p => p.acct == a)).map Point.date,
   (sortByDate (st.filter fun p => p.acct == a)).map Point.bal)

/-- The ordering of the `Account.balances` relationship:
`desc(as_of_date), desc(created_at)` - `newerEq p q` says `p` sorts
before (or ties with) `q`. -/
def newerEq (p q : Point) : Prop :=
  q.date < p.date ∨ (q.date = p.date ∧ q.created ≤ p.created)

instance : DecidableRel newerEq := fun p q =>
  decidable_of_iff (q.date < p.date ∨ (q.date = p.date ∧ q.created ≤ p.created)) Iff.rfl

instance : IsTotal Point newerEq :=
  ⟨fun p q => by unfold newerEq; omega⟩

instance : IsTrans Point newerEq :=
  ⟨fun p q r h₁ h₂ => by unfold newerEq at *; omega⟩

/-- The `Account.balances` relationship restricted to one account,
newest (by date, then by creation time) first. -/
def balancesDesc (st : List Point) (a : Nat) : List Point :=
  (st.filter fun p => p.acct == a).insertionSort newerEq

/-- `Account.current_balance` (src/app.py lines 39-43): the first entry
of `balances`, or 0.00 without observations. -/
def current_balance (st : List Point) (a : Nat) : Int :=
  match (balancesDesc st a).head? with
  | some p => p.bal
  | none => 0

/-- `BalancePoint.query.filter_by(account_id=..., as_of_date=...).first()`. -/
def findPoint (st : List Point) (a d : Nat) : Option Point :=
  st.find? fun p => p.acct == a && p.date == d

/-- Assign `point.balance = bal` on the first row matching the key. -/
def setBalFirst : List Point → Nat → Nat → Int → List Point
  | [], _, _, _ => []
  | p :: ps, a, d, b =>
    if p.acct == a && p.date == d then { p with bal := b } :: ps
    else p :: setBalFirst ps a d b

/-- The write part of `balance_add` (src/app.py lines 316-325) and of
an imported row (src/import.py lines 119-128): update the existing
point for (account, date) or insert a fresh one. -/
def upsert (st : List Point) (a d : Nat) (b : Int) (t : Nat) : List Point :=
  match findPoint st a d with
  | some _ => setBalFirst st a d b
  | none => st ++ [⟨a, d, b, t⟩]

/-- Claim-side fold picking the observation of account `a` with the
greatest date among those with date at most `d` (the claim's "latest
observation with date <= labels[i]"). -/
def bestObs (d : Nat) (acc : Option Point) (p : Point) : Option Point :=
  if p.date ≤ d then
    match acc with
    | none => some p
    | some q => if q.date ≤ p.date then some p else some q
  else acc

/-- Claim-side: the latest observation of `a` on or before `d`. -/
def latestLE (st : List Point) (a d : Nat) : Option Point :=
  (st.filter fun p => p.acct == a).foldl (bestObs d) none

/-- Claim-side: the balance carried at date `d` for account `a` - the
latest observation on or before `d`, or 0 if there is none. -/
def specValue (st : List Point) (a d : Nat) : Int :=
  match latestLE st a d with
  | some p => p.bal
  | none => 0

/-! ## Accounts, deletion, CSV import -/

/-- An `Account` row (the fields the verified operations touch). -/
structure AccountRow where
  id : Nat
  name : String
deriving DecidableEq, Repr

/-- The persisted state: account rows, balance points, and the next
fresh account id (the autoincrement primary key). -/
structure DBState where
  accounts : List AccountRow
  points : List Point
  nextId : Nat
deriving DecidableEq, Repr

/-- `account_delete` (src/app.py lines 288-294) with the
`cascade="all, delete-orphan"` relationship (lines 31-37): the account
row and every balance point of that account are removed. -/
def account_delete (db : DBState) (aid : Nat) : DBState :=
  ⟨db.accounts.filter fun ac => !(ac.id == aid),
   db.points.filter fun p => !(p.acct == aid),
   db.nextId⟩

/-- One CSV data row after `DictReader`, keyed by the normalised
headers date/accountname/balance. -/
structure Row where
  date : String
  accountname : String
  balance : String
deriving DecidableEq, Repr

/-- The counters reported by `import_csv`. -/
structure ImportStats where
  rows_total : Nat
  created_accounts : Nat
  inserted_points : Nat
  updated_points : Nat
  skipped_rows : Nat
deriving DecidableEq, Repr

/-- Python `str.strip()` on a `String`. -/
def pyStripS (s : String) : String := ⟨pyStrip s.data⟩

/-- Date key of a parsed calendar date, ordered like the calendar. -/
def ymdKey (x : Ymd) : Nat := x.y * 10000 + x.m * 100 + x.d

/-- The account name used by an import row: `norm_row` strips the cell,
and the row loop strips it again. -/
def importName (raw : Row) : String := pyStripS (pyStripS raw.accountname)

/-- Numeric value, in integer cents, of a quantized `Decimal` (exponent
`-2`), as stored into the two-decimal `Numeric` column. -/
def decCents (d : Dec) : Int :=
  if d.neg then -(d.coeff : Int) else (d.coeff : Int)

/-- The upsert of one import row, also bumping the matching counter. -/
def upsertCounted (db : DBState) (st : ImportStats) (aid d : Nat) (bal : Int) :
    DBState × ImportStats :=
  match findPoint db.points aid d with
  | some _ =>
    (⟨db.accounts, setBalFirst db.points aid d bal, db.nextId⟩,
     { st with updated_points := st.updated_points + 1 })
  | none =>
    (⟨db.accounts, db.points ++ [⟨aid, d, bal, 0⟩], db.nextId⟩,
     { st with inserted_points := st.inserted_points + 1 })

/-- The body of the row loop of `import_csv` (src/import.py lines
93-128): count the row; parse date and amount (any failure skips the
row); skip on empty account name; find or create the account; upsert
the balance point. -/
def import_step (s : DBState × ImportStats) (raw : Row) : DBState × ImportStats :=
  let db := s.1
  let st1 : ImportStats := { s.2 with rows_total := s.2.rows_total + 1 }
  match parse_date_ddmmyyyy (pyStripS raw.date), parse_decimal (pyStripS raw.balance) with
  | some d, some bal =>
    let name := importName raw
    if name = "" then (db, { st1 with skipped_rows := st1.skipped_rows + 1 })
    else
      match db.accounts.find? fun ac => ac.name == name with
      | some ac => upsertCounted db st1 ac.id (ymdKey d) (decCents bal)
      | none =>
        upsertCounted ⟨db.accounts ++ [⟨db.nextId, name⟩], db.points, db.nextId + 1⟩
          { st1 with created_accounts := st1.created_accounts + 1 }
          db.nextId (ymdKey d) (decCents bal)
  | _, _ => (db, { st1 with skipped_rows := st1.skipped_rows + 1 })

/-- The row loop of `import_csv` (src/import.py lines 64-138) over the
already-split data rows, starting from zeroed counters. -/
def import_csv (db : DBState) (rows : List Row) : DBState × ImportStats :=
  rows.foldl import_step (db, ⟨0, 0, 0, 0, 0⟩)

/-- A row is bad when its date or amount does not parse or its account
name is empty - exactly the conditions under which the loop skips. -/
def rowBad (raw : Row) : Prop :=
  parse_date_ddmmyyyy (pyStripS raw.date) = none ∨
  parse_decimal (pyStripS raw.balance) = none ∨
  importName raw = ""

instance (raw : Row) : Decidable (rowBad raw) :=
  decidable_of_iff (parse_date_ddmmyyyy (pyStripS raw.date) = none ∨
    parse_decimal (pyStripS raw.balance) = none ∨ importName raw = "") Iff.rfl

/-! ## Basic lemmas: digits, spans, strip, rfind -/

theorem digitVal_charOfDigit {d : Nat} (h : d < 10) :
    digitVal (charOfDigit d) = d := by
  interval_cases d <;> decide

theorem isDigit_charOfDigit {d : Nat} (h : d < 10) :
    (charOfDigit d).isDigit = true := by
  interval_cases d <;> decide

theorem isDigit_toNat_ge {c : Char} (h : c.isDigit = true) : 48 ≤ c.toNat := by
  simp only [Char.isDigit, Bool.and_eq_true, decide_eq_true_eq] at h
  exact_mod_cast h.1

theorem isPySpace_of_eq {c : Char} (h : isPySpace c = true) :
    c = ' ' ∨ c = '\t' ∨ c = '\n' ∨ c = '\r' ∨ c = '\x0b' ∨ c = '\x0c' := by
  simp only [isPySpace, Bool.or_eq_true, decide_eq_true_eq] at h
  tauto

theorem not_pySpace_of_isDigit {c : Char} (h : c.isDigit = true) :
    isPySpace c = false := by
  cases hc : isPySpace c
  · rfl
  · exfalso
    rcases isPySpace_of_eq hc with h' | h' | h' | h' | h' | h' <;>
      subst h' <;> exact absurd h (by decide)

theorem digitsRev_fuel : ∀ n f f', n ≤ f → n ≤ f' → digitsRev f n = digitsRev f' n := by
  intro n
  induction n using Nat.strong_induction_on with
  | _ n ih =>
    intro f f' hf hf'
    match f, f' with
    | 0, 0 => rfl
    | 0, g' + 1 =>
      interval_cases n
      rfl
    | g + 1, 0 =>
      interval_cases n
      rfl
    | g + 1, g' + 1 =>
      simp only [digitsRev]
      by_cases hn : n = 0
      · simp [hn]
      · simp only [hn, if_false]
        have hlt : n / 10 < n := Nat.div_lt_self (by omega) (by omega)
        rw [ih (n / 10) hlt g g' (by omega) (by omega)]

theorem digitsRev_lt_ten : ∀ f n d, d ∈ digitsRev f n → d < 10 := by
  intro f
  induction f with
  | zero => intro n d h; simp [digitsRev] at h
  | succ f ih =>
    intro n d h
    simp only [digitsRev] at h
    by_cases hn : n = 0
    · simp [hn] at h
    · simp only [hn, if_false, List.mem_cons] at h
      rcases h with h | h
      · subst h; exact Nat.mod_lt _ (by omega)
      · exact ih _ _ h

theorem natValRev_digitsRev : ∀ n f, n ≤ f → natValRev (digitsRev f n) = n := by
  intro n
  induction n using Nat.strong_induction_on with
  | _ n ih =>
    intro f hf
    match f with
    | 0 =>
      interval_cases n
      rfl
    | g + 1 =>
      simp only [digitsRev]
      by_cases hn : n = 0
      · simp [hn, natValRev]
      · simp only [hn, if_false]
        have hlt : n / 10 < n := Nat.div_lt_self (by omega) (by omega)
        have := ih (n / 10) hlt g (by omega)
        simp only [natValRev, List.foldr_cons] at *
        omega

theorem digitsVal_from (a : Nat) (l : List Char) :
    l.foldl (fun a c => 10 * a + digitVal c) a = a * 10 ^ l.length + digitsVal l := by
  induction l generalizing a with
  | nil => simp [digitsVal]
  | cons c rest ih =>
    simp only [List.foldl_cons, List.length_cons, digitsVal]
    rw [ih (10 * a + digitVal c), ih (10 * 0 + digitVal c)]
    ring

theorem digitsVal_append (l₁ l₂ : List Char) :
    digitsVal (l₁ ++ l₂) = digitsVal l₁ * 10 ^ l₂.length + digitsVal l₂ := by
  simp only [digitsVal, List.foldl_append]
  rw [digitsVal_from]
  rfl

theorem digitsVal_cons_zero (l : List Char) :
    digitsVal ('0' :: l) = digitsVal l := by
  simp [digitsVal, digitVal]

theorem digitsVal_revMap (l : List Nat) (hd : ∀ d ∈ l, d < 10) :
    digitsVal (l.reverse.map charOfDigit) = natValRev l := by
  induction l with
  | nil => rfl
  | cons d rest ih =>
    simp only [List.reverse_cons, List.map_append, List.map_cons, List.map_nil]
    rw [digitsVal_append]
    have hdl : d < 10 := hd d (by simp)
    have : digitsVal [charOfDigit d] = d := by
      simp [digitsVal, digitVal_charOfDigit hdl]
    rw [this, ih fun x hx => hd x (by simp [hx])]
    simp [natValRev]

theorem natDigits_ne_nil (n : Nat) : natDigits n ≠ [] := by
  unfold natDigits
  by_cases hn : n = 0
  · simp [hn]
  · simp only [hn, if_false]
    intro h
    rw [List.map_eq_nil_iff, List.reverse_eq_nil_iff] at h
    have := natValRev_digitsRev n n le_rfl
    rw [h] at this
    simp [natValRev] at this
    omega

theorem digitsVal_natDigits (n : Nat) : digitsVal (natDigits n) = n := by
  unfold natDigits
  by_cases hn : n = 0
  · simp [hn]; decide
  · simp only [hn, if_false]
    rw [digitsVal_revMap _ (fun d hd => digitsRev_lt_ten _ _ _ hd)]
    exact natValRev_digitsRev n n le_rfl

theorem mem_natDigits_isDigit {n : Nat} {c : Char} (h : c ∈ natDigits n) :
    c.isDigit = true := by
  unfold natDigits at h
  by_cases hn : n = 0
  · simp [hn] at h
    subst h; decide
  · simp only [hn, if_false, List.mem_map, List.mem_reverse] at h
    obtain ⟨d, hd, rfl⟩ := h
    exact isDigit_charOfDigit (digitsRev_lt_ten _ _ _ hd)

theorem takeWhile_app {p : Char → Bool} {xs ys : List Char} {y : Char}
    (h1 : ∀ x ∈ xs, p x = true) (h2 : p y = false) :
    (xs ++ y :: ys).takeWhile p = xs := by
  induction xs with
  | nil => simp [List.takeWhile_cons, h2]
  | cons x rest ih =>
    rw [List.cons_append, List.takeWhile_cons, h1 x (by simp)]
    simp only [if_true]
    rw [ih fun a ha => h1 a (by simp [ha])]

theorem dropWhile_app {p : Char → Bool} {xs ys : List Char} {y : Char}
    (h1 : ∀ x ∈ xs, p x = true) (h2 : p y = false) :
    (xs ++ y :: ys).dropWhile p = y :: ys := by
  induction xs with
  | nil => simp [List.dropWhile_cons, h2]
  | cons x rest ih =>
    rw [List.cons_append, List.dropWhile_cons, h1 x (by simp)]
    simp only [if_true]
    exact ih fun a ha => h1 a (by simp [ha])

theorem takeWhile_all {p : Char → Bool} {l : List Char}
    (h : ∀ x ∈ l, p x = true) : l.takeWhile p = l := by
  induction l with
  | nil => rfl
  | cons x rest ih =>
    rw [List.takeWhile_cons, h x (by simp)]
    simp only [if_true]
    rw [ih fun a ha => h a (by simp [ha])]

theorem dropWhile_all {p : Char → Bool} {l : List Char}
    (h : ∀ x ∈ l, p x = true) : l.dropWhile p = [] := by
  induction l with
  | nil => rfl
  | cons x rest ih =>
    rw [List.dropWhile_cons, h x (by simp)]
    simp only [if_true]
    exact ih fun a ha => h a (by simp [ha])

theorem dropWhile_spaces_app {pre y : List Char}
    (hp : ∀ c ∈ pre, isPySpace c = true) :
    (pre ++ y).dropWhile isPySpace = y.dropWhile isPySpace := by
  induction pre with
  | nil => simp
  | cons x rest ih =>
    rw [List.cons_append, List.dropWhile_cons, hp x (by simp)]
    simp only [if_true]
    exact ih fun a ha => hp a (by simp [ha])

theorem dropWhile_no_space {l : List Char}
    (h : ∀ c ∈ l, isPySpace c = false) : l.dropWhile isPySpace = l := by
  cases l with
  | nil => rfl
  | cons x rest => rw [List.dropWhile_cons, h x (by simp)]; simp

theorem pyStrip_eq_self {l : List Char}
    (h : ∀ c ∈ l, isPySpace c = false) : pyStrip l = l := by
  unfold pyStrip
  rw [dropWhile_no_space h, dropWhile_no_space (by intro c hc; exact h c (List.mem_reverse.mp hc))]
  simp

theorem mem_dropWhile_of_not {c : Char} {p : Char → Bool} {l : List Char}
    (hc : p c = false) (h : c ∈ l) : c ∈ l.dropWhile p := by
  induction l with
  | nil => simp at h
  | cons x rest ih =>
    rw [List.dropWhile_cons]
    by_cases hx : p x = true
    · simp only [hx, if_true]
      rcases List.mem_cons.mp h with rfl | hmem
      · rw [hx] at hc; exact absurd hc (by simp)
      · exact ih hmem
    · simp only [Bool.not_eq_true] at hx
      simp [hx, h]

theorem mem_pyStrip_iff {c : Char} {l : List Char} (hc : isPySpace c = false) :
    c ∈ pyStrip l ↔ c ∈ l := by
  constructor
  · intro h
    unfold pyStrip at h
    rw [List.mem_reverse] at h
    have h2 := (List.dropWhile_sublist isPySpace).mem h
    rw [List.mem_reverse] at h2
    exact (List.dropWhile_sublist isPySpace).mem h2
  · intro h
    unfold pyStrip
    rw [List.mem_reverse]
    exact mem_dropWhile_of_not hc (by rw [List.mem_reverse]; exact mem_dropWhile_of_not hc h)

theorem pyStrip_decomp (l : List Char) :
    ∃ pre suf, l = pre ++ pyStrip l ++ suf ∧
      (∀ c ∈ pre, isPySpace c = true) ∧ (∀ c ∈ suf, isPySpace c = true) := by
  refine ⟨l.takeWhile isPySpace,
    ((l.dropWhile isPySpace).reverse.takeWhile isPySpace).reverse, ?_, ?_, ?_⟩
  · conv_lhs => rw [← List.takeWhile_append_dropWhile isPySpace l]
    rw [List.append_assoc]
    congr 1
    unfold pyStrip
    conv_lhs => rw [← List.reverse_reverse (l.dropWhile isPySpace),
      ← List.takeWhile_append_dropWhile isPySpace (l.dropWhile isPySpace).reverse]
    rw [List.reverse_append]
  · intro c hc; exact List.mem_takeWhile_imp hc
  · intro c hc
    rw [List.mem_reverse] at hc
    exact List.mem_takeWhile_imp hc

theorem pyStrip_app_left {pre y : List Char}
    (hp : ∀ c ∈ pre, isPySpace c = true) : pyStrip (pre ++ y) = pyStrip y := by
  unfold pyStrip
  rw [dropWhile_spaces_app hp]

theorem pyStrip_app_right {suf y : List Char}
    (hs : ∀ c ∈ suf, isPySpace c = true) : pyStrip (y ++ suf) = pyStrip y := by
  unfold pyStrip
  rw [List.dropWhile_append]
  by_cases hy : (y.dropWhile isPySpace).isEmpty = true
  · rw [if_pos hy]
    rw [List.isEmpty_iff] at hy
    rw [hy, dropWhile_all hs]
  · rw [if_neg hy]
    rw [List.reverse_append]
    rw [dropWhile_spaces_app (by intro c hc; exact hs c (List.mem_reverse.mp hc))]

theorem pyStrip_append_spaces {pre suf x : List Char}
    (hp : ∀ c ∈ pre, isPySpace c = true) (hs : ∀ c ∈ suf, isPySpace c = true) :
    pyStrip (pre ++ x ++ suf) = pyStrip x := by
  rw [List.append_assoc, pyStrip_app_left hp]
  exact pyStrip_app_right hs

theorem pyStrip_idem (l : List Char) : pyStrip (pyStrip l) = pyStrip l := by
  obtain ⟨pre, suf, hdec, hp, hs⟩ := pyStrip_decomp l
  conv_rhs => rw [hdec]
  rw [pyStrip_append_spaces hp hs]

theorem rfind_cons (ch c : Char) (cs : List Char) :
    rfind ch (c :: cs) =
      if rfind ch cs ≥ 0 then rfind ch cs + 1 else if c = ch then 0 else -1 := rfl

theorem rfind_nonneg_iff (ch : Char) (l : List Char) :
    rfind ch l ≥ 0 ↔ ch ∈ l := by
  induction l with
  | nil => simp [rfind]
  | cons c rest ih =>
    rw [rfind_cons]
    simp only [List.mem_cons]
    by_cases h : rfind ch rest ≥ 0
    · rw [if_pos h]
      constructor
      · intro _; right; exact ih.mp h
      · intro _; omega
    · rw [if_neg h]
      by_cases hc : c = ch
      · simp [hc]
      · rw [if_neg hc]
        constructor
        · intro hcon; omega
        · intro hmem
          rcases hmem with rfl | hmem
          · exact absurd rfl hc
          · exact absurd (ih.mpr hmem) h

theorem rfind_not_mem {ch : Char} {l : List Char} (h : ch ∉ l) : rfind ch l = -1 := by
  induction l with
  | nil => rfl
  | cons c rest ih =>
    simp only [List.mem_cons, not_or] at h
    rw [rfind_cons, ih h.2]
    rw [if_neg (by omega), if_neg fun hc => h.1 hc.symm]

theorem rfind_append (ch : Char) (xs ys : List Char) :
    rfind ch (xs ++ ys) =
      if rfind ch ys ≥ 0 then xs.length + rfind ch ys else rfind ch xs := by
  induction xs with
  | nil =>
    simp only [List.nil_append, List.length_nil]
    by_cases hy : rfind ch ys ≥ 0
    · rw [if_pos hy]; omega
    · rw [if_neg hy]
      have hmem : ch ∉ ys := fun hm => hy ((rfind_nonneg_iff ch ys).mpr hm)
      rw [rfind_not_mem hmem]
      rfl
  | cons c rest ih =>
    rw [List.cons_append, rfind_cons, ih, rfind_cons]
    by_cases hy : rfind ch ys ≥ 0
    · rw [if_pos hy, if_pos (show (rest.length : Int) + rfind ch ys ≥ 0 by omega),
        if_pos hy]
      simp only [List.length_cons]
      push_cast
      ring
    · rw [if_neg hy, if_neg hy]

/-! ## Decimal parsing lemmas -/

theorem contains_true {a : Char} {l : List Char} (h : a ∈ l) : l.contains a = true := by
  exact List.elem_iff.mpr h

theorem contains_false {a : Char} {l : List Char} (h : a ∉ l) : l.contains a = false := by
  cases hc : l.contains a
  · rfl
  · exact absurd (List.elem_iff.mp hc) h

theorem isDigit_ne_syms {c : Char} (h : c.isDigit = true) :
    c ≠ ',' ∧ c ≠ '-' ∧ c ≠ '+' ∧ c ≠ '.' := by
  have h48 := isDigit_toNat_ge h
  refine ⟨?_, ?_, ?_, ?_⟩ <;> rintro rfl <;> exact absurd h48 (by decide)

theorem quantize2_shape {d v : Dec} (h : quantize2 d = some v) :
    v.exp = -2 ∧ numDigits v.coeff ≤ 28 := by
  unfold quantize2 at h
  by_cases h28 : numDigits (if -2 ≤ d.exp then d.coeff * 10 ^ (d.exp + 2).toNat
      else roundHalfEven d.coeff (10 ^ (-2 - d.exp).toNat)) ≤ 28
  · rw [if_pos h28] at h
    injection h with h2
    subst h2
    exact ⟨rfl, h28⟩
  · rw [if_neg h28] at h
    exact absurd h (by simp)

theorem parseDecBody_plain (neg : Bool) (I F : List Char)
    (hI : ∀ x ∈ I, x.isDigit = true) (hF : ∀ x ∈ F, x.isDigit = true)
    (hlen : I.length + F.length ≠ 0) :
    parseDecBody neg (I ++ '.' :: F) =
      some ⟨neg, digitsVal (I ++ F), 0 - (F.length : Int)⟩ := by
  simp only [parseDecBody]
  rw [takeWhile_app hI (by decide), dropWhile_app hI (by decide)]
  rw [if_pos (by simp)]
  simp only [List.tail_cons]
  rw [takeWhile_all hF, dropWhile_all hF, if_neg hlen]
  rfl

theorem parseDecCore_sign_plain (neg : Bool) (I F : List Char)
    (hI : ∀ x ∈ I, x.isDigit = true) (hF : ∀ x ∈ F, x.isDigit = true)
    (hlen : I.length + F.length ≠ 0) :
    parseDecCore ((if neg then ['-'] else []) ++ (I ++ '.' :: F)) =
      some ⟨neg, digitsVal (I ++ F), 0 - (F.length : Int)⟩ := by
  cases neg with
  | true =>
    show parseDecCore ('-' :: (I ++ '.' :: F)) = _
    unfold parseDecCore
    rw [if_pos (by simp), List.tail_cons]
    exact parseDecBody_plain true I F hI hF hlen
  | false =>
    show parseDecCore (I ++ '.' :: F) = _
    unfold parseDecCore
    cases I with
    | nil =>
      rw [List.nil_append]
      rw [if_neg (by simp), if_neg (by simp)]
      exact parseDecBody_plain false [] F (by simp) hF hlen
    | cons x xs =>
      have hx := isDigit_ne_syms (hI x (by simp))
      rw [List.cons_append]
      rw [if_neg (by simp [hx.2.1]), if_neg (by simp [hx.2.2.1])]
      rw [← List.cons_append]
      exact parseDecBody_plain false (x :: xs) F hI hF hlen

theorem parse_decimal_plain (neg : Bool) (I F : List Char)
    (hI : ∀ x ∈ I, x.isDigit = true) (hF : ∀ x ∈ F, x.isDigit = true)
    (hF2 : F.length = 2)
    (h28 : numDigits (digitsVal (I ++ F)) ≤ 28) :
    parse_decimal ⟨(if neg then ['-'] else []) ++ (I ++ '.' :: F)⟩ =
      some ⟨neg, digitsVal (I ++ F), -2⟩ := by
  have hlen : I.length + F.length ≠ 0 := by
    rw [hF2]; omega
  have hmem : ∀ c ∈ (if neg then ['-'] else []) ++ (I ++ '.' :: F),
      c.isDigit = true ∨ c = '-' ∨ c = '.' := by
    intro c hc
    rcases List.mem_append.mp hc with hc | hc
    · cases neg <;> simp at hc
      · right; left; exact hc
    · rcases List.mem_append.mp hc with hc | hc
      · exact Or.inl (hI c hc)
      · rcases List.mem_cons.mp hc with rfl | hc
        · right; right; rfl
        · exact Or.inl (hF c hc)
  have hnospace : ∀ c ∈ (if neg then ['-'] else []) ++ (I ++ '.' :: F),
      isPySpace c = false := by
    intro c hc
    rcases hmem c hc with h | h | h
    · exact not_pySpace_of_isDigit h
    · subst h; decide
    · subst h; decide
  have hnocomma : ',' ∉ (if neg then ['-'] else []) ++ (I ++ '.' :: F) := by
    intro hc
    rcases hmem ',' hc with h | h | h
    · exact absurd h (by decide)
    · exact absurd h (by decide)
    · exact absurd h (by decide)
  have hdot : '.' ∈ (if neg then ['-'] else []) ++ (I ++ '.' :: F) := by
    simp
  simp only [parse_decimal, normalizeAmount]
  rw [pyStrip_eq_self hnospace]
  rw [if_neg (by
    intro hemp
    rw [List.isEmpty_iff] at hemp
    rw [hemp] at hdot
    simp at hdot)]
  rw [contains_false hnocomma]
  simp only [Bool.false_and, Bool.false_eq_true, if_false]
  simp only [parseDecimalLit]
  rw [pyStrip_eq_self hnospace]
  rw [parseDecCore_sign_plain neg I F hI hF hlen]
  have he : (0 : Int) - (F.length : Int) = -2 := by rw [hF2]; norm_num
  rw [he]
  simp only [quantize2]
  rw [if_pos (le_refl (-2 : Int))]
  have htn : ((-2 : Int) + 2).toNat = 0 := by norm_num
  rw [htn, pow_zero, mul_one, if_pos h28]

theorem decStr_cases (neg : Bool) (c : Nat) :
    ∃ I F, decStr ⟨neg, c, -2⟩ = (if neg then ['-'] else []) ++ (I ++ '.' :: F) ∧
      F.length = 2 ∧ (∀ x ∈ I, x.isDigit = true) ∧ (∀ x ∈ F, x.isDigit = true) ∧
      digitsVal (I ++ F) = c := by
  have hne := natDigits_ne_nil c
  have hdig0 : ∀ x ∈ natDigits c, x.isDigit = true := fun x hx => mem_natDigits_isDigit hx
  have hval0 := digitsVal_natDigits c
  cases hds : natDigits c with
  | nil => exact absurd hds hne
  | cons a tl =>
    have hdig1 : ∀ x ∈ a :: tl, x.isDigit = true := hds ▸ hdig0
    have hval1 : digitsVal (a :: tl) = c := hds ▸ hval0
    cases tl with
    | nil =>
      refine ⟨['0'], ['0', a], ?_, rfl, ?_, ?_, ?_⟩
      · cases neg <;> simp [decStr, hds]
      · intro x hx
        simp only [List.mem_singleton] at hx
        subst hx; decide
      · intro x hx
        rcases List.mem_cons.mp hx with rfl | hx
        · decide
        · simp only [List.mem_singleton] at hx
          rw [hx]
          exact hdig1 a (by simp)
      · show digitsVal ('0' :: '0' :: [a]) = c
        rw [digitsVal_cons_zero, digitsVal_cons_zero]
        exact hval1
    | cons b tl2 =>
      cases tl2 with
      | nil =>
        refine ⟨['0'], [a, b], ?_, rfl, ?_, ?_, ?_⟩
        · cases neg <;> simp [decStr, hds]
        · intro x hx
          simp only [List.mem_singleton] at hx
          subst hx; decide
        · intro x hx
          exact hdig1 x (by simpa using hx)
        · show digitsVal ('0' :: [a, b]) = c
          rw [digitsVal_cons_zero]
          exact hval1
      | cons e tl3 =>
        have hlen3 : 3 ≤ (natDigits c).length := by rw [hds]; simp
        refine ⟨(natDigits c).take ((natDigits c).length - 2),
          (natDigits c).drop ((natDigits c).length - 2), ?_, ?_, ?_, ?_, ?_⟩
        · have hlpos : (0 : Int) < -2 + ((natDigits c).length : Int) := by
            omega
          have htn : ((-2 : Int) + ((natDigits c).length : Int)).toNat =
              (natDigits c).length - 2 := by omega
          simp only [decStr]
          rw [if_neg (by norm_num : ¬((-2 : Int) = 0)), if_pos hlpos, htn]
          cases neg <;> simp
        · rw [List.length_drop]; omega
        · intro x hx; exact hdig0 x (List.take_subset _ _ hx)
        · intro x hx; exact hdig0 x (List.drop_subset _ _ hx)
        · rw [List.take_append_drop]; exact hval0

theorem parse_decimal_decStr (neg : Bool) (c : Nat) (h28 : numDigits c ≤ 28) :
    parse_decimal ⟨decStr ⟨neg, c, -2⟩⟩ = some ⟨neg, c, -2⟩ := by
  obtain ⟨I, F, hIF, hF2, hI, hF, hvalIF⟩ := decStr_cases neg c
  rw [hIF]
  have hmain := parse_decimal_plain neg I F hI hF hF2 (by rw [hvalIF]; exact h28)
  rw [hmain, hvalIF]

/-- Claim C4: `parseAmount` is idempotent on its own canonical output -
whenever `parse_decimal` succeeds on `x` with value `v`, parsing the
decimal string rendering of `v` succeeds again and yields `v`. -/
theorem parse_decimal_idem (x : String) (v : Dec) (h : parse_decimal x = some v) :
    parse_decimal ⟨decStr v⟩ = some v := by
  have hsh : v.exp = -2 ∧ numDigits v.coeff ≤ 28 := by
    unfold parse_decimal at h
    cases hn : normalizeAmount x with
    | none =>
      rw [hn] at h
      exact absurd h (by simp)
    | some s =>
      rw [hn] at h
      replace h : (match parseDecimalLit s with
        | none => none
        | some d => quantize2 d) = some v := h
      cases hp : parseDecimalLit s with
      | none =>
        rw [hp] at h
        exact absurd h (by simp)
      | some d =>
        rw [hp] at h
        exact quantize2_shape h
  obtain ⟨hexp, h28⟩ := hsh
  obtain ⟨ng, co, e⟩ := v
  simp only at hexp h28
  subst hexp
  exact parse_decimal_decStr ng co h28

/-- Witness for C4 at the concrete input "1,5" (canonical output 1.50). -/
theorem parse_decimal_idem_witness :
    parse_decimal "1,5" = some ⟨false, 150, -2⟩ ∧
    parse_decimal ⟨decStr ⟨false, 150, -2⟩⟩ = some ⟨false, 150, -2⟩ :=
  ⟨by decide, parse_decimal_idem "1,5" ⟨false, 150, -2⟩ (by decide)⟩

/-- Claim C10: the two-digit quantization in `parse_decimal` rounds
half-to-even (banker's rounding): whenever the parsed literal `d` is an
exact half between two hundredths (in particular when its normalized
value has a third fractional digit 5 and nothing beyond, i.e. exponent
`-3` and coefficient ending in 5), the result is the neighbouring
hundredth with even coefficient; `parse_decimal "0.125" = 0.12` and
`parse_decimal "0.135" = 0.14`. -/
theorem parse_decimal_half_even (s : String) (t : List Char) (d : Dec)
    (hn : normalizeAmount s = some t) (hp : parseDecimalLit t = some d)
    (hexp : d.exp < -2)
    (h5 : 2 * (d.coeff % 10 ^ (-2 - d.exp).toNat) = 10 ^ (-2 - d.exp).toNat)
    (h28 : numDigits (if d.coeff / 10 ^ (-2 - d.exp).toNat % 2 = 1 then
        d.coeff / 10 ^ (-2 - d.exp).toNat + 1
      else d.coeff / 10 ^ (-2 - d.exp).toNat) ≤ 28) :
    parse_decimal s =
      some ⟨d.neg,
        if d.coeff / 10 ^ (-2 - d.exp).toNat % 2 = 1 then
          d.coeff / 10 ^ (-2 - d.exp).toNat + 1
        else d.coeff / 10 ^ (-2 - d.exp).toNat, -2⟩ ∧
    parse_decimal "0.125" = some ⟨false, 12, -2⟩ ∧
    parse_decimal "0.135" = some ⟨false, 14, -2⟩ := by
  refine ⟨?_, by decide, by decide⟩
  unfold parse_decimal
  rw [hn]
  show (match parseDecimalLit t with
    | none => none
    | some d => quantize2 d) = _
  rw [hp]
  show quantize2 d = _
  simp only [quantize2]
  rw [if_neg (by omega : ¬(-2 : Int) ≤ d.exp)]
  set p := 10 ^ (-2 - d.exp).toNat with hp2
  simp only [roundHalfEven]
  rw [h5]
  rw [if_neg (lt_irrefl p), if_neg (lt_irrefl p), if_pos h28]

/-- Witness for C10 at "0.125": exact half, rounds down to the even 0.12. -/
theorem parse_decimal_half_even_witness :
    normalizeAmount "0.125" = some ['0', '.', '1', '2', '5'] ∧
    parseDecimalLit ['0', '.', '1', '2', '5'] = some ⟨false, 125, -3⟩ ∧
    parse_decimal "0.125" =
      some ⟨false,
        if 125 / 10 ^ ((-2 : Int) - -3).toNat % 2 = 1 then
          125 / 10 ^ ((-2 : Int) - -3).toNat + 1
        else 125 / 10 ^ ((-2 : Int) - -3).toNat, -2⟩ := by
  refine ⟨by decide, by decide, ?_⟩
  exact (parse_decimal_half_even "0.125" ['0', '.', '1', '2', '5'] ⟨false, 125, -3⟩
    (by decide) (by decide) (by decide) (by decide) (by decide)).1

/-! ## Claim C2: rightmost separator wins -/

theorem rfind_compare_pyStrip {l : List Char} (hc : ',' ∈ l) (hd : '.' ∈ l) :
    (rfind ',' (pyStrip l) > rfind '.' (pyStrip l)) ↔ (rfind ',' l > rfind '.' l) := by
  obtain ⟨pre, suf, hdec, hp, hs⟩ := pyStrip_decomp l
  have key : ∀ ch : Char, isPySpace ch = false → ch ∈ l →
      rfind ch l = (pre.length : Int) + rfind ch (pyStrip l) := by
    intro ch hsp hm
    have hmm : ch ∈ pyStrip l := (mem_pyStrip_iff hsp).mpr hm
    have hsuf : ch ∉ suf := fun hx => by
      rw [hs ch hx] at hsp
      exact absurd hsp (by simp)
    conv_lhs => rw [hdec, List.append_assoc]
    rw [rfind_append ch pre (pyStrip l ++ suf),
      rfind_append ch (pyStrip l) suf,
      rfind_not_mem hsuf,
      if_neg (by norm_num : ¬(-1 : Int) ≥ 0),
      if_pos ((rfind_nonneg_iff ch (pyStrip l)).mpr hmm)]
  rw [key ',' (by decide) hc, key '.' (by decide) hd]
  omega

theorem pyStrip_hom_strip (F : List Char → List Char)
    (hFapp : ∀ a b, F (a ++ b) = F a ++ F b)
    (hFsp : ∀ a, (∀ c ∈ a, isPySpace c = true) → F a = a)
    (l : List Char) :
    pyStrip (F (pyStrip l)) = pyStrip (F l) := by
  obtain ⟨pre, suf, hdec, hp, hs⟩ := pyStrip_decomp l
  conv_rhs => rw [hdec]
  rw [hFapp, hFapp, hFsp pre hp, hFsp suf hs]
  rw [pyStrip_append_spaces hp hs]

theorem stripDots_app (a b : List Char) :
    commaToDot ((a ++ b).filter fun c => c != '.') =
      commaToDot (a.filter fun c => c != '.') ++ commaToDot (b.filter fun c => c != '.') := by
  simp [commaToDot, List.filter_append]

theorem stripDots_spaces (a : List Char) (h : ∀ c ∈ a, isPySpace c = true) :
    commaToDot (a.filter fun c => c != '.') = a := by
  have h1 : a.filter (fun c => c != '.') = a := by
    rw [List.filter_eq_self]
    intro c hc
    rcases isPySpace_of_eq (h c hc) with h' | h' | h' | h' | h' | h' <;> subst h' <;> decide
  rw [h1]
  unfold commaToDot
  rw [List.map_congr_left fun c hc => ?_, List.map_id]
  rcases isPySpace_of_eq (h c hc) with h' | h' | h' | h' | h' | h' <;> subst h' <;> decide

theorem stripCommas_app (a b : List Char) :
    ((a ++ b).filter fun c => c != ',') =
      (a.filter fun c => c != ',') ++ (b.filter fun c => c != ',') :=
  List.filter_append a b

theorem stripCommas_spaces (a : List Char) (h : ∀ c ∈ a, isPySpace c = true) :
    (a.filter fun c => c != ',') = a := by
  rw [List.filter_eq_self]
  intro c hc
  rcases isPySpace_of_eq (h c hc) with h' | h' | h' | h' | h' | h' <;> subst h' <;> decide

theorem comma_not_mem_commaToDot (l : List Char) : ',' ∉ commaToDot l := by
  intro h
  rw [commaToDot, List.mem_map] at h
  obtain ⟨a, _, ha⟩ := h
  by_cases hc : a = ','
  · rw [if_pos hc] at ha
    exact absurd ha (by decide)
  · rw [if_neg hc] at ha
    exact hc ha

theorem claimTransform_pos {l : List Char} (h : rfind ',' l > rfind '.' l) :
    claimTransform l = commaToDot (l.filter fun c => c != '.') := by
  unfold claimTransform
  rw [if_pos h]
  simp [commaToDot]

theorem claimTransform_neg {l : List Char} (h : ¬(rfind ',' l > rfind '.' l)) :
    claimTransform l = l.filter fun c => c != ',' := by
  simp only [claimTransform]
  rw [if_neg h]
  rw [if_neg (by decide : ¬(('.' : Char) = ','))]
  rw [List.map_congr_left fun c hc => ?_, List.map_id]
  by_cases hc' : c = '.'
  · rw [if_pos hc', hc']; rfl
  · rw [if_neg hc']; rfl

theorem parse_decimal_no_comma (u : List Char) (hcne : ',' ∉ u)
    (hne : pyStrip u ≠ []) :
    parse_decimal ⟨u⟩ =
      (match parseDecimalLit u with
       | none => none
       | some d => quantize2 d) := by
  have hc' : ',' ∉ pyStrip u := fun h => hcne ((mem_pyStrip_iff (by decide)).mp h)
  unfold parse_decimal normalizeAmount
  rw [if_neg fun h => hne (List.isEmpty_iff.mp h)]
  rw [contains_false hc']
  simp only [Bool.false_and, Bool.false_eq_true, if_false]
  show (match parseDecimalLit (pyStrip u) with
    | none => none
    | some d => quantize2 d) = _
  have : parseDecimalLit (pyStrip u) = parseDecimalLit u := by
    unfold parseDecimalLit
    rw [pyStrip_idem]
  rw [this]

/-- Claim C2: when both separators occur, `parse_decimal` treats the
rightmost one as the decimal separator and strips every occurrence of
the other: the result equals parsing the string with the non-rightmost
separator removed and the rightmost separator read as the decimal
point; in particular both "1.234,56" and "1,234.56" parse to 1234.56. -/
theorem parse_decimal_rightmost (s : String)
    (hboth : ',' ∈ s.data ∧ '.' ∈ s.data) :
    parse_decimal s = parse_decimal ⟨claimTransform s.data⟩ ∧
    parse_decimal "1.234,56" = some ⟨false, 123456, -2⟩ ∧
    parse_decimal "1,234.56" = some ⟨false, 123456, -2⟩ := by
  refine ⟨?_, by decide, by decide⟩
  obtain ⟨hc, hd⟩ := hboth
  have hcm : ',' ∈ pyStrip s.data := (mem_pyStrip_iff (by decide)).mpr hc
  have hdm : '.' ∈ pyStrip s.data := (mem_pyStrip_iff (by decide)).mpr hd
  have hne : pyStrip s.data ≠ [] := fun h => by rw [h] at hcm; simp at hcm
  conv_lhs => unfold parse_decimal normalizeAmount
  rw [if_neg fun h => hne (List.isEmpty_iff.mp h)]
  rw [contains_true hcm, contains_true hdm]
  simp only [Bool.and_self, if_true]
  by_cases hcmp : rfind ',' (pyStrip s.data) > rfind '.' (pyStrip s.data)
  · -- comma is the decimal separator
    have hcmp' : rfind ',' s.data > rfind '.' s.data :=
      (rfind_compare_pyStrip hc hd).mp hcmp
    rw [if_pos hcmp]
    rw [claimTransform_pos hcmp']
    have hdotmem : '.' ∈ commaToDot (s.data.filter fun c => c != '.') := by
      rw [commaToDot, List.mem_map]
      exact ⟨',', List.mem_filter.mpr ⟨hc, by decide⟩, by decide⟩
    rw [parse_decimal_no_comma _ (comma_not_mem_commaToDot _)
      (fun h => by
        have := (mem_pyStrip_iff (by decide : isPySpace '.' = false)).mpr hdotmem
        rw [h] at this
        simp at this)]
    have hkey : parseDecimalLit (commaToDot ((pyStrip s.data).filter fun c => c != '.')) =
        parseDecimalLit (commaToDot (s.data.filter fun c => c != '.')) := by
      unfold parseDecimalLit
      rw [pyStrip_hom_strip (fun x => commaToDot (x.filter fun c => c != '.'))
        stripDots_app stripDots_spaces s.data]
    show (match parseDecimalLit (commaToDot ((pyStrip s.data).filter fun c => c != '.')) with
      | none => none
      | some d => quantize2 d) = _
    rw [hkey]
  · -- dot is the decimal separator
    have hcmp' : ¬(rfind ',' s.data > rfind '.' s.data) :=
      fun h => hcmp ((rfind_compare_pyStrip hc hd).mpr h)
    rw [if_neg hcmp]
    rw [claimTransform_neg hcmp']
    have hdotmem : '.' ∈ s.data.filter fun c => c != ',' :=
      List.mem_filter.mpr ⟨hd, by decide⟩
    rw [parse_decimal_no_comma _
      (fun h => by simp [List.mem_filter] at h)
      (fun h => by
        have := (mem_pyStrip_iff (by decide : isPySpace '.' = false)).mpr hdotmem
        rw [h] at this
        simp at this)]
    have hkey : parseDecimalLit ((pyStrip s.data).filter fun c => c != ',') =
        parseDecimalLit (s.data.filter fun c => c != ',') := by
      unfold parseDecimalLit
      rw [pyStrip_hom_strip (fun x => x.filter fun c => c != ',')
        stripCommas_app stripCommas_spaces s.data]
    show (match parseDecimalLit ((pyStrip s.data).filter fun c => c != ',') with
      | none => none
      | some d => quantize2 d) = _
    rw [hkey]

/-- Witness for C2: "12,3.4" has both separators; the dot is rightmost. -/
theorem parse_decimal_rightmost_witness :
    (',' ∈ "12,3.4".data ∧ '.' ∈ "12,3.4".data) ∧
    parse_decimal "12,3.4" = parse_decimal ⟨claimTransform "12,3.4".data⟩ :=
  ⟨by decide, (parse_decimal_rightmost "12,3.4" (by decide)).1⟩

/-! ## Claim C7: the two date parsers -/

theorem daysInMonth_le_31 (y m : Nat) : daysInMonth y m ≤ 31 := by
  unfold daysInMonth
  split
  · split <;> omega
  · split <;> omega

theorem expectChar_some {c : Char} {l r : List Char} :
    expectChar c l = some r ↔ l = c :: r := by
  cases l with
  | nil => simp [expectChar]
  | cons x xs =>
    simp only [expectChar]
    by_cases hx : x = c
    · rw [if_pos hx]
      subst hx
      simp
    · rw [if_neg hx]
      simp [hx]

theorem scan3_iff {sepc : Char} (hsep : sepc.isDigit = false)
    (l a b c : List Char) :
    scan3 sepc l = some (a, b, c) ↔
      l = a ++ sepc :: (b ++ sepc :: c) ∧
      (∀ x ∈ a, x.isDigit = true) ∧ (∀ x ∈ b, x.isDigit = true) ∧
      (∀ x ∈ c, x.isDigit = true) := by
  constructor
  · intro h
    simp only [scan3] at h
    cases h1 : expectChar sepc (l.dropWhile Char.isDigit) with
    | none => rw [h1, Option.none_bind] at h; exact absurd h (by simp)
    | some r2 =>
      rw [h1, Option.some_bind] at h
      cases h2 : expectChar sepc (r2.dropWhile Char.isDigit) with
      | none => rw [h2, Option.none_bind] at h; exact absurd h (by simp)
      | some r4 =>
        rw [h2, Option.some_bind] at h
        split at h
        · rename_i hend
          injection h with h
          rw [Prod.mk.injEq, Prod.mk.injEq] at h
          obtain ⟨ha2, hb2, hc2⟩ := h
          rw [expectChar_some] at h1 h2
          have hle : l = l.takeWhile Char.isDigit ++ sepc :: r2 := by
            conv_lhs => rw [← List.takeWhile_append_dropWhile Char.isDigit l]
            rw [h1]
          have hr2e : r2 = r2.takeWhile Char.isDigit ++ sepc :: r4 := by
            conv_lhs => rw [← List.takeWhile_append_dropWhile Char.isDigit r2]
            rw [h2]
          have hr4e : r4 = r4.takeWhile Char.isDigit := by
            conv_lhs => rw [← List.takeWhile_append_dropWhile Char.isDigit r4]
            rw [hend, List.append_nil]
          subst ha2
          subst hb2
          subst hc2
          refine ⟨?_, fun x hx => List.mem_takeWhile_imp hx,
            fun x hx => List.mem_takeWhile_imp hx, fun x hx => List.mem_takeWhile_imp hx⟩
          rw [← hr4e, ← hr2e]
          exact hle
        · exact absurd h (by simp)
  · rintro ⟨rfl, ha, hb, hc⟩
    simp only [scan3]
    rw [takeWhile_app ha hsep, dropWhile_app ha hsep]
    rw [show expectChar sepc (sepc :: (b ++ sepc :: c)) = some (b ++ sepc :: c) by
      simp [expectChar]]
    rw [Option.some_bind]
    rw [takeWhile_app hb hsep, dropWhile_app hb hsep]
    rw [show expectChar sepc (sepc :: c) = some c by simp [expectChar]]
    rw [Option.some_bind]
    rw [takeWhile_all hc, dropWhile_all hc, if_pos rfl]

theorem strptimeYmd_iff (l : List Char) (y m d : Nat) :
    strptimeYmd l = some ⟨y, m, d⟩ ↔ LenientYmd l y m d := by
  constructor
  · intro h
    simp only [strptimeYmd] at h
    cases hs : scan3 '-' l with
    | none => rw [hs, Option.none_bind] at h; exact absurd h (by simp)
    | some t =>
      obtain ⟨t1, t2, t3⟩ := t
      rw [hs, Option.some_bind] at h
      dsimp only at h
      split at h
      · rename_i hP
        injection h with h
        obtain ⟨hy, hm, hd⟩ := Ymd.mk.injEq .. ▸ h
        obtain ⟨hdec, h1, h2, h3⟩ := (scan3_iff (by decide) l t1 t2 t3).mp hs
        obtain ⟨hl4, hml, hdl, hm1, hm12, hd1, hd31, hy1, hdim⟩ := hP
        refine ⟨t1, t2, t3, hdec, h1, hl4, h2, ?_, ?_, h3, ?_, ?_, hy, hm, hd, ?_⟩
        · rcases hml with h' | h' <;> omega
        · rcases hml with h' | h' <;> omega
        · rcases hdl with h' | h' <;> omega
        · rcases hdl with h' | h' <;> omega
        · rw [← hy, ← hm, ← hd]
          exact ⟨hy1, hm1, hm12, hd1, hdim⟩
      · exact absurd h (by simp)
  · rintro ⟨ys, ms, ds, heq, hysD, hys4, hmsD, hms1, hms2, hdsD, hds1, hds2,
      hyv, hmv, hdv, hvv⟩
    have hscan : scan3 '-' l = some (ys, ms, ds) :=
      (scan3_iff (by decide) l ys ms ds).mpr ⟨heq, hysD, hmsD, hdsD⟩
    simp only [strptimeYmd]
    rw [hscan, Option.some_bind]
    dsimp only
    obtain ⟨h1y, h1m, hm12, h1d, hdim⟩ := hvv
    rw [if_pos ?_]
    · rw [hyv, hmv, hdv]
    · refine ⟨hys4, by omega, by omega, ?_, ?_, ?_, ?_, ?_, ?_⟩
      · rw [hmv]; omega
      · rw [hmv]; omega
      · rw [hdv]; omega
      · rw [hdv]
        exact le_trans hdim (daysInMonth_le_31 y m)
      · rw [hyv]; omega
      · rw [hyv, hmv, hdv]
        exact hdim

theorem strptimeDmy_iff (l : List Char) (y m d : Nat) :
    strptimeDmy l = some ⟨y, m, d⟩ ↔ LenientDmy l y m d := by
  constructor
  · intro h
    simp only [strptimeDmy] at h
    cases hs : scan3 '.' l with
    | none => rw [hs, Option.none_bind] at h; exact absurd h (by simp)
    | some t =>
      obtain ⟨t1, t2, t3⟩ := t
      rw [hs, Option.some_bind] at h
      dsimp only at h
      split at h
      · rename_i hP
        injection h with h
        obtain ⟨hy, hm, hd⟩ := Ymd.mk.injEq .. ▸ h
        obtain ⟨hl4, hml, hdl, hm1, hm12, hd1, hd31, hy1, hdim⟩ := hP
        obtain ⟨hdec, h1, h2, h3⟩ := (scan3_iff (by decide) l t1 t2 t3).mp hs
        refine ⟨t1, t2, t3, hdec, h1, ?_, ?_, h2, ?_, ?_, h3, hl4, hy, hm, hd, ?_⟩
        · rcases hdl with h' | h' <;> omega
        · rcases hdl with h' | h' <;> omega
        · rcases hml with h' | h' <;> omega
        · rcases hml with h' | h' <;> omega
        · rw [← hy, ← hm, ← hd]
          exact ⟨hy1, hm1, hm12, hd1, hdim⟩
      · exact absurd h (by simp)
  · rintro ⟨ds, ms, ys, heq, hdsD, hds1, hds2, hmsD, hms1, hms2, hysD, hys4,
      hyv, hmv, hdv, hvv⟩
    have hscan : scan3 '.' l = some (ds, ms, ys) :=
      (scan3_iff (by decide) l ds ms ys).mpr ⟨heq, hdsD, hmsD, hysD⟩
    simp only [strptimeDmy]
    rw [hscan, Option.some_bind]
    dsimp only
    obtain ⟨h1y, h1m, hm12, h1d, hdim⟩ := hvv
    rw [if_pos ?_]
    · rw [hyv, hmv, hdv]
    · refine ⟨hys4, by omega, by omega, ?_, ?_, ?_, ?_, ?_, ?_⟩
      · rw [hmv]; omega
      · rw [hmv]; omega
      · rw [hdv]; omega
      · rw [hdv]
        exact le_trans hdim (daysInMonth_le_31 y m)
      · rw [hyv]; omega
      · rw [hyv, hmv, hdv]
        exact hdim

/-- Claim C7 (amended): the UI parser accepts exactly the strptime
Y-m-d format - a 4-digit year and 1-2 digit month and day fields
forming a valid calendar date (zero padding of month and day is
optional, as in CPython's strptime) - and returns today's date on empty
input; the CSV parser accepts exactly the day-first d.m.Y format on the
stripped input and fails (with no default) on empty or whitespace-only
input; each parser fails on everything else, with no fallback format. -/
theorem date_parsers_formats :
    (∀ today : Ymd, parse_date today "" = some today) ∧
    (∀ (today : Ymd) (s : String) (y m d : Nat), s ≠ "" →
      (parse_date today s = some ⟨y, m, d⟩ ↔ LenientYmd s.data y m d)) ∧
    (∀ s : String, pyStrip s.data = [] → parse_date_ddmmyyyy s = none) ∧
    (∀ (s : String) (y m d : Nat),
      parse_date_ddmmyyyy s = some ⟨y, m, d⟩ ↔
        (pyStrip s.data ≠ [] ∧ LenientDmy (pyStrip s.data) y m d)) := by
  refine ⟨?_, ?_, ?_, ?_⟩
  · intro today
    simp [parse_date]
  · intro today s y m d hne
    simp only [parse_date]
    rw [if_neg hne]
    exact strptimeYmd_iff s.data y m d
  · intro s h
    simp [parse_date_ddmmyyyy, h]
  · intro s y m d
    simp only [parse_date_ddmmyyyy]
    by_cases h : pyStrip s.data = []
    · rw [if_pos h]
      simp [h]
    · rw [if_neg h]
      rw [strptimeDmy_iff]
      simp [h]

/-- Counterexample to C7 as stated: the UI parser does not accept
exactly zero-padded ISO YYYY-MM-DD strings - strptime's %m and %d also
match single digits, so "2024-1-5" is accepted although it is not of
the YYYY-MM-DD shape. -/
theorem date_parser_strict_iso_cex :
    parse_date ⟨2025, 6, 1⟩ "2024-1-5" = some ⟨2024, 1, 5⟩ ∧
    strictIsoOk "2024-1-5".data = false :=
  ⟨by decide, by decide⟩

/-- Witness for the amended C7 at "2024-01-05". -/
theorem date_parsers_formats_witness :
    parse_date ⟨2025, 6, 1⟩ "2024-01-05" = some ⟨2024, 1, 5⟩ ∧
    LenientYmd "2024-01-05".data 2024 1 5 :=
  ⟨by decide,
    (date_parsers_formats.2.1 ⟨2025, 6, 1⟩ "2024-01-05" 2024 1 5 (by decide)).mp
      (by decide)⟩

/-! ## Claim C5: current balance -/

/-- Claim C5: an account's derived current balance is the amount of its
observation with the latest date (ties on date broken in favour of the
most recently created observation), and 0.00 with no observations. -/
theorem current_balance_correct (st : List Point) (a : Nat) :
    ((st.filter fun p => p.acct == a) = [] → current_balance st a = 0) ∧
    (∀ p ∈ st, p.acct = a →
      (∀ q ∈ st, q.acct = a → q ≠ p →
        q.date < p.date ∨ (q.date = p.date ∧ q.created < p.created)) →
      current_balance st a = p.bal) := by
  constructor
  · intro h
    unfold current_balance balancesDesc
    rw [h]
    rfl
  · intro p hp hpa hmax
    have hpmem : p ∈ balancesDesc st a := by
      unfold balancesDesc
      rw [(List.perm_insertionSort newerEq _).mem_iff]
      exact List.mem_filter.mpr ⟨hp, by simp [hpa]⟩
    have hsorted : List.Sorted newerEq (balancesDesc st a) :=
      List.sorted_insertionSort newerEq _
    cases hbd : balancesDesc st a with
    | nil =>
      rw [hbd] at hpmem
      simp at hpmem
    | cons h0 t =>
      unfold current_balance
      rw [hbd]
      show h0.bal = p.bal
      rw [hbd] at hsorted hpmem
      rcases List.mem_cons.mp hpmem with rfl | hpt
      · rfl
      · have hh0mem : h0 ∈ st ∧ h0.acct = a := by
          have hmem : h0 ∈ balancesDesc st a := by rw [hbd]; simp
          unfold balancesDesc at hmem
          rw [(List.perm_insertionSort newerEq _).mem_iff] at hmem
          have := List.mem_filter.mp hmem
          exact ⟨this.1, by simpa using this.2⟩
        by_cases heq : h0 = p
        · rw [heq]
        · have h1 : newerEq h0 p := (List.pairwise_cons.mp hsorted).1 p hpt
          have h2 := hmax h0 hh0mem.1 hh0mem.2 heq
          unfold newerEq at h1
          exfalso
          rcases h1 with h1 | ⟨h1a, h1b⟩ <;> rcases h2 with h2 | ⟨h2a, h2b⟩ <;> omega

/-- Witness for C5: in a three-point store, account 1's latest (and on
date ties, most recently created) observation has balance 300. -/
theorem current_balance_correct_witness :
    current_balance
      [⟨1, 20240101, 100, 0⟩, ⟨2, 20240201, 50, 1⟩, ⟨1, 20240301, 300, 2⟩] 1 = 300 :=
  (current_balance_correct
    [⟨1, 20240101, 100, 0⟩, ⟨2, 20240201, 50, 1⟩, ⟨1, 20240301, 300, 2⟩] 1).2
    ⟨1, 20240301, 300, 2⟩ (by decide) rfl (by decide)

/-! ## Claim C6: single-account series -/

/-- Claim C6: the single-account series builder returns labels and
values in one-to-one positional correspondence with exactly that
account's stored observations sorted by date ascending (no gap
filling): both lists have length equal to the account's own observation
count, the label/value pairs are a permutation of the account's
(date, balance) pairs arranged in ascending date order, and the result
depends only on that account's own observations. -/
theorem build_account_series_correct (st : List Point) (a : Nat) :
    ((build_account_series st a).1.length = (st.filter fun p => p.acct == a).length ∧
     (build_account_series st a).2.length = (st.filter fun p => p.acct == a).length) ∧
    ((build_account_series st a).1.zip (build_account_series st a).2).Perm
      ((st.filter fun p => p.acct == a).map fun p => (p.date, p.bal)) ∧
    ((build_account_series st a).1.zip (build_account_series st a).2).Pairwise
      (fun x y => x.1 ≤ y.1) ∧
    (∀ st' : List Point,
      st'.filter (fun p => p.acct == a) = st.filter (fun p => p.acct == a) →
      build_account_series st' a = build_account_series st a) := by
  have hperm : (sortByDate (st.filter fun p => p.acct == a)).Perm
      (st.filter fun p => p.acct == a) :=
    List.perm_insertionSort _ _
  have hzip : (build_account_series st a).1.zip (build_account_series st a).2 =
      (sortByDate (st.filter fun p => p.acct == a)).map fun p => (p.date, p.bal) := by
    unfold build_account_series
    exact List.zip_map' _ _ _
  refine ⟨⟨?_, ?_⟩, ?_, ?_, ?_⟩
  · unfold build_account_series
    rw [List.length_map]
    exact hperm.length_eq
  · unfold build_account_series
    rw [List.length_map]
    exact hperm.length_eq
  · rw [hzip]
    exact hperm.map _
  · rw [hzip]
    have hsorted : List.Sorted (fun p q : Point => p.date ≤ q.date)
        (sortByDate (st.filter fun p => p.acct == a)) :=
      List.sorted_insertionSort _ _
    exact hsorted.map _ (fun p q h => h)
  · intro st' h
    unfold build_account_series
    rw [h]

/-- Witness for C6: the series of account 1 is unchanged when another
account's observation is removed from the store. -/
theorem build_account_series_correct_witness :
    ([⟨1, 5, 7, 0⟩] : List Point).filter (fun p => p.acct == 1) =
      ([⟨1, 5, 7, 0⟩, ⟨2, 3, 9, 1⟩] : List Point).filter (fun p => p.acct == 1) ∧
    build_account_series [⟨1, 5, 7, 0⟩] 1 =
      build_account_series [⟨1, 5, 7, 0⟩, ⟨2, 3, 9, 1⟩] 1 :=
  ⟨by decide, (build_account_series_correct [⟨1, 5, 7, 0⟩, ⟨2, 3, 9, 1⟩] 1).2.2.2
    [⟨1, 5, 7, 0⟩] (by decide)⟩

/-! ## Claim C3: upsert keeps one observation per (account, date) -/

theorem keyInv_iff_keys (l : List Point) :
    KeyInv l ↔ (l.map fun p => (p.acct, p.date)).Pairwise
      fun x y => ¬(x.1 = y.1 ∧ x.2 = y.2) := by
  unfold KeyInv keyDistinct
  rw [List.pairwise_map]

theorem setBalFirst_keys (st : List Point) (a d : Nat) (b : Int) :
    (setBalFirst st a d b).map (fun p => (p.acct, p.date)) =
      st.map fun p => (p.acct, p.date) := by
  induction st with
  | nil => rfl
  | cons p ps ih =>
    simp only [setBalFirst]
    by_cases h : (p.acct == a && p.date == d) = true
    · rw [if_pos h]
      simp
    · rw [if_neg h]
      simp [ih]

theorem setBalFirst_keyInv {st : List Point} (a d : Nat) (b : Int)
    (hinv : KeyInv st) : KeyInv (setBalFirst st a d b) := by
  rw [keyInv_iff_keys, setBalFirst_keys]
  rw [keyInv_iff_keys] at hinv
  exact hinv

theorem findPoint_none_iff {st : List Point} {a d : Nat} :
    findPoint st a d = none ↔ ∀ p ∈ st, ¬(p.acct = a ∧ p.date = d) := by
  unfold findPoint
  rw [List.find?_eq_none]
  constructor
  · intro h p hp hkey
    exact h p hp (by simp [hkey.1, hkey.2])
  · intro h p hp hb
    simp only [Bool.and_eq_true, beq_iff_eq] at hb
    exact h p hp hb

theorem upsert_keyInv (st : List Point) (a d : Nat) (b : Int) (t : Nat)
    (hinv : KeyInv st) : KeyInv (upsert st a d b t) := by
  unfold upsert
  cases hf : findPoint st a d with
  | some p0 => exact setBalFirst_keyInv a d b hinv
  | none =>
    have hnone := findPoint_none_iff.mp hf
    unfold KeyInv
    rw [List.pairwise_append]
    refine ⟨hinv, by simp, ?_⟩
    intro p hp q hq
    simp only [List.mem_singleton] at hq
    subst hq
    unfold keyDistinct
    exact hnone p hp

theorem setBalFirst_filter {st : List Point} {a d : Nat} (b : Int)
    (hinv : KeyInv st) (hex : ∃ p ∈ st, p.acct = a ∧ p.date = d) :
    ((setBalFirst st a d b).filter fun p => p.acct == a && p.date == d).map
      Point.bal = [b] := by
  induction st with
  | nil => simp at hex
  | cons q qs ih =>
    have hq := (List.pairwise_cons.mp hinv).1
    have hqs := (List.pairwise_cons.mp hinv).2
    simp only [setBalFirst]
    by_cases hq0 : (q.acct == a && q.date == d) = true
    · rw [if_pos hq0]
      simp only [Bool.and_eq_true, beq_iff_eq] at hq0
      have hrest : qs.filter (fun p => p.acct == a && p.date == d) = [] := by
        rw [List.filter_eq_nil_iff]
        intro r hr hb
        simp only [Bool.and_eq_true, beq_iff_eq] at hb
        exact hq r hr ⟨by rw [hq0.1, hb.1], by rw [hq0.2, hb.2]⟩
      rw [List.filter_cons_of_pos (by simp [hq0.1, hq0.2]), hrest]
      rfl
    · rw [if_neg hq0]
      have hq0' : (q.acct == a && q.date == d) = false := by
        rw [Bool.eq_false_iff]
        exact hq0
      simp only [List.filter_cons, hq0', Bool.false_eq_true, if_false]
      apply ih hqs
      obtain ⟨p, hp, hkey⟩ := hex
      rcases List.mem_cons.mp hp with rfl | hp'
      · exact absurd (by simp [hkey.1, hkey.2]) hq0
      · exact ⟨p, hp', hkey⟩

theorem upsert_filter_bal (st : List Point) (a d : Nat) (b : Int) (t : Nat)
    (hinv : KeyInv st) :
    ((upsert st a d b t).filter fun p => p.acct == a && p.date == d).map
      Point.bal = [b] := by
  unfold upsert
  cases hf : findPoint st a d with
  | some p0 =>
    have hb := List.find?_some hf
    have hm := List.mem_of_find?_eq_some hf
    simp only [Bool.and_eq_true, beq_iff_eq] at hb
    exact setBalFirst_filter b hinv ⟨p0, hm, hb⟩
  | none =>
    have hnone := findPoint_none_iff.mp hf
    rw [List.filter_append]
    rw [List.filter_eq_nil_iff.mpr fun p hp hb => by
      simp only [Bool.and_eq_true, beq_iff_eq] at hb
      exact hnone p hp hb]
    rw [List.filter_cons_of_pos (by simp)]
    rfl

theorem upsertCounted_points (db : DBState) (st : ImportStats) (aid d : Nat) (bal : Int) :
    (upsertCounted db st aid d bal).1.points = upsert db.points aid d bal 0 := by
  unfold upsertCounted upsert
  cases findPoint db.points aid d <;> rfl

theorem import_step_keyInv (db : DBState) (stt : ImportStats) (raw : Row)
    (h : KeyInv db.points) : KeyInv (import_step (db, stt) raw).1.points := by
  cases hd : parse_date_ddmmyyyy (pyStripS raw.date) with
  | none =>
    simp only [import_step, hd]
    exact h
  | some dt =>
    cases hb : parse_decimal (pyStripS raw.balance) with
    | none =>
      simp only [import_step, hd, hb]
      exact h
    | some bal =>
      simp only [import_step, hd, hb]
      split
      · exact h
      · split
        · rw [upsertCounted_points]
          exact upsert_keyInv _ _ _ _ _ h
        · rw [upsertCounted_points]
          exact upsert_keyInv _ _ _ _ _ h

theorem import_fold_keyInv : ∀ (rows : List Row) (s : DBState × ImportStats),
    KeyInv s.1.points → KeyInv ((rows.foldl import_step s).1.points) := by
  intro rows
  induction rows with
  | nil => intro s h; exact h
  | cons r rs ih =>
    intro s h
    rw [List.foldl_cons]
    refine ih (import_step s r) ?_
    obtain ⟨db, stt⟩ := s
    exact import_step_keyInv db stt r h

/-- Claim C3: for every pair of successive balance writes to the same
(account, date) - the write step shared by the UI `balance_add` and by
a CSV import row - the store afterwards holds exactly one observation
for that pair, its amount is the second write's; the at-most-one-per-
key invariant is preserved by each write and by a whole CSV import. -/
theorem upsert_upsert_spec (st : List Point) (a d : Nat) (b₁ b₂ : Int) (t₁ t₂ : Nat)
    (hinv : KeyInv st) :
    KeyInv (upsert st a d b₁ t₁) ∧
    KeyInv (upsert (upsert st a d b₁ t₁) a d b₂ t₂) ∧
    ((upsert (upsert st a d b₁ t₁) a d b₂ t₂).filter
      fun p => p.acct == a && p.date == d).map Point.bal = [b₂] ∧
    (∀ (db : DBState) (rows : List Row), KeyInv db.points →
      KeyInv (import_csv db rows).1.points) := by
  have h1 := upsert_keyInv st a d b₁ t₁ hinv
  refine ⟨h1, upsert_keyInv _ a d b₂ t₂ h1, upsert_filter_bal _ a d b₂ t₂ h1, ?_⟩
  intro db rows hdb
  exact import_fold_keyInv rows (db, ⟨0, 0, 0, 0, 0⟩) hdb

/-- Witness for C3: two writes to (account 1, date 5) leave exactly one
observation with the second amount. -/
theorem upsert_upsert_spec_witness :
    KeyInv ([] : List Point) ∧
    ((upsert (upsert [] 1 5 100 0) 1 5 200 1).filter
      fun p => p.acct == 1 && p.date == 5).map Point.bal = [200] :=
  ⟨by decide, (upsert_upsert_spec [] 1 5 100 200 0 1 (by decide)).2.2.1⟩

/-! ## Claim C9: deleting an account -/

theorem mem_sortedDates {st : List Point} {d : Nat} :
    d ∈ sortedDates st ↔ ∃ p ∈ st, p.date = d := by
  unfold sortedDates
  rw [(List.perm_insertionSort _ _).mem_iff, List.mem_dedup, List.mem_map]

theorem filter_acct_delete (pts : List Point) (aid b : Nat) (hb : b ≠ aid) :
    (pts.filter fun p => !(p.acct == aid)).filter (fun p => p.acct == b) =
      pts.filter fun p => p.acct == b := by
  rw [List.filter_filter]
  apply List.filter_congr
  intro p _
  by_cases hp : p.acct = b
  · simp [hp, hb]
  · simp [hp]

theorem specValue_delete_other (pts : List Point) (aid b : Nat) (hb : b ≠ aid)
    (d : Nat) :
    specValue (pts.filter fun p => !(p.acct == aid)) b d = specValue pts b d := by
  unfold specValue latestLE
  rw [filter_acct_delete pts aid b hb]

theorem specValue_delete_self (pts : List Point) (aid d : Nat) :
    specValue (pts.filter fun p => !(p.acct == aid)) aid d = 0 := by
  unfold specValue latestLE
  have h : (pts.filter fun p => !(p.acct == aid)).filter (fun p => p.acct == aid) = [] := by
    rw [List.filter_eq_nil_iff]
    intro p hp hb
    have := (List.mem_filter.mp hp).2
    rw [hb] at this
    simp at this
  rw [h]
  rfl

/-- Claim C9: deleting an account removes exactly that account row and
all of its observations: membership in the accounts and points tables
afterwards is characterised by "was there before and does not belong to
the deleted account"; afterwards no date of the stacked-series axis
comes from the deleted account, its carried value is 0 everywhere, and
every other account's carried values are unchanged. -/
theorem account_delete_spec (db : DBState) (aid : Nat) :
    (∀ ac, ac ∈ (account_delete db aid).accounts ↔ ac ∈ db.accounts ∧ ac.id ≠ aid) ∧
    (∀ p, p ∈ (account_delete db aid).points ↔ p ∈ db.points ∧ p.acct ≠ aid) ∧
    (∀ dd, dd ∈ sortedDates (account_delete db aid).points ↔
      ∃ p ∈ db.points, p.acct ≠ aid ∧ p.date = dd) ∧
    (∀ dd, specValue (account_delete db aid).points aid dd = 0) ∧
    (∀ b, b ≠ aid → ∀ dd,
      specValue (account_delete db aid).points b dd = specValue db.points b dd) := by
  refine ⟨?_, ?_, ?_, ?_, ?_⟩
  · intro ac
    show ac ∈ db.accounts.filter (fun ac => !(ac.id == aid)) ↔ _
    rw [List.mem_filter]
    simp
  · intro p
    show p ∈ db.points.filter (fun p => !(p.acct == aid)) ↔ _
    rw [List.mem_filter]
    simp
  · intro dd
    show dd ∈ sortedDates (db.points.filter fun p => !(p.acct == aid)) ↔ _
    rw [mem_sortedDates]
    constructor
    · rintro ⟨p, hp, hd⟩
      have := List.mem_filter.mp hp
      exact ⟨p, this.1, by simpa using this.2, hd⟩
    · rintro ⟨p, hp, hne, hd⟩
      exact ⟨p, List.mem_filter.mpr ⟨hp, by simpa using hne⟩, hd⟩
  · intro dd
    exact specValue_delete_self db.points aid dd
  · intro b hb dd
    exact specValue_delete_other db.points aid b hb dd

/-- Witness for C9: account 2's carried value is unchanged after
deleting account 1. -/
theorem account_delete_spec_witness :
    (2 : Nat) ≠ 1 ∧
    specValue (account_delete ⟨[], [⟨1, 5, 100, 0⟩, ⟨2, 6, 50, 0⟩], 3⟩ 1).points 2 7 =
      specValue (⟨[], [⟨1, 5, 100, 0⟩, ⟨2, 6, 50, 0⟩], 3⟩ : DBState).points 2 7 :=
  ⟨by decide,
    (account_delete_spec ⟨[], [⟨1, 5, 100, 0⟩, ⟨2, 6, 50, 0⟩], 3⟩ 1).2.2.2.2 2
      (by decide) 7⟩

/-! ## Claim C1: stacked series with carry-forward -/

theorem bestObs_fold (d : Nat) : ∀ (l : List Point) (acc : Option Point),
    (List.foldl (bestObs d) acc l = none ↔ (acc = none ∧ ∀ p ∈ l, ¬p.date ≤ d)) ∧
    (∀ q, List.foldl (bestObs d) acc l = some q →
      ((q ∈ l ∧ q.date ≤ d) ∨ acc = some q) ∧
      (∀ p ∈ l, p.date ≤ d → p.date ≤ q.date) ∧
      (∀ q₀, acc = some q₀ → q₀.date ≤ q.date)) := by
  intro l
  induction l with
  | nil =>
    intro acc
    refine ⟨by simp, ?_⟩
    intro q h
    simp only [List.foldl_nil] at h
    refine ⟨Or.inr h, by simp, ?_⟩
    intro q₀ hq₀
    rw [h] at hq₀
    injection hq₀ with e
    rw [e]
  | cons p ps ih =>
    intro acc
    rw [List.foldl_cons]
    obtain ⟨ihn, ihs⟩ := ih (bestObs d acc p)
    constructor
    · rw [ihn]
      constructor
      · rintro ⟨hb, hall⟩
        unfold bestObs at hb
        by_cases hp : p.date ≤ d
        · rw [if_pos hp] at hb
          exfalso
          cases acc with
          | none => exact absurd hb (by simp)
          | some q0 =>
            dsimp only at hb
            by_cases hcmp : q0.date ≤ p.date
            · rw [if_pos hcmp] at hb; exact absurd hb (by simp)
            · rw [if_neg hcmp] at hb; exact absurd hb (by simp)
        · rw [if_neg hp] at hb
          refine ⟨hb, ?_⟩
          intro r hr
          rcases List.mem_cons.mp hr with rfl | hr'
          · exact hp
          · exact hall r hr'
      · rintro ⟨hacc, hall⟩
        have hp : ¬p.date ≤ d := hall p (by simp)
        refine ⟨?_, fun r hr => hall r (by simp [hr])⟩
        unfold bestObs
        rw [if_neg hp]
        exact hacc
    · intro q hq
      obtain ⟨hmem, hmax, hacc⟩ := ihs q hq
      refine ⟨?_, ?_, ?_⟩
      · rcases hmem with ⟨hq1, hq2⟩ | hb
        · exact Or.inl ⟨by simp [hq1], hq2⟩
        · unfold bestObs at hb
          by_cases hp : p.date ≤ d
          · rw [if_pos hp] at hb
            cases acc with
            | none =>
              dsimp only at hb
              injection hb with e
              exact Or.inl ⟨by simp [← e], by rw [← e]; exact hp⟩
            | some q0 =>
              dsimp only at hb
              by_cases hcmp : q0.date ≤ p.date
              · rw [if_pos hcmp] at hb
                injection hb with e
                exact Or.inl ⟨by simp [← e], by rw [← e]; exact hp⟩
              · rw [if_neg hcmp] at hb
                injection hb with e
                exact Or.inr (by rw [← e])
          · rw [if_neg hp] at hb
            exact Or.inr hb
      · intro r hr hrd
        rcases List.mem_cons.mp hr with rfl | hr'
        · have hex : ∃ q', bestObs d acc r = some q' ∧ r.date ≤ q'.date := by
            unfold bestObs
            rw [if_pos hrd]
            cases acc with
            | none => exact ⟨r, rfl, le_refl _⟩
            | some q0 =>
              dsimp only
              by_cases hcmp : q0.date ≤ r.date
              · rw [if_pos hcmp]; exact ⟨r, rfl, le_refl _⟩
              · rw [if_neg hcmp]; exact ⟨q0, rfl, by omega⟩
          obtain ⟨q', hq', hle⟩ := hex
          exact le_trans hle (hacc q' hq')
        · exact hmax r hr' hrd
      · intro q₀ h₀
        have hex : ∃ q', bestObs d acc p = some q' ∧ q₀.date ≤ q'.date := by
          unfold bestObs
          by_cases hp : p.date ≤ d
          · rw [if_pos hp, h₀]
            dsimp only
            by_cases hcmp : q₀.date ≤ p.date
            · rw [if_pos hcmp]; exact ⟨p, rfl, hcmp⟩
            · rw [if_neg hcmp]; exact ⟨q₀, rfl, le_refl _⟩
          · rw [if_neg hp, h₀]
            exact ⟨q₀, rfl, le_refl _⟩
        obtain ⟨q', hq', hle⟩ := hex
        exact le_trans hle (hacc q' hq')

theorem keyInv_unique {st : List Point} (hinv : KeyInv st) {p q : Point}
    (hp : p ∈ st) (hq : q ∈ st) (ha : p.acct = q.acct) (hd : p.date = q.date) :
    p = q := by
  induction st with
  | nil => simp at hp
  | cons x xs ih =>
    obtain ⟨hx, hxs⟩ := List.pairwise_cons.mp hinv
    rcases List.mem_cons.mp hp with rfl | hp' <;> rcases List.mem_cons.mp hq with rfl | hq'
    · rfl
    · exact absurd ⟨ha, hd⟩ (hx q hq')
    · exact absurd ⟨ha.symm, hd.symm⟩ (hx p hp')
    · exact ih hxs hp' hq'

theorem specValue_eq_zero {st : List Point} {a d : Nat}
    (h : ∀ p ∈ st, p.acct = a → ¬p.date ≤ d) :
    specValue st a d = 0 := by
  have hnone : latestLE st a d = none := by
    unfold latestLE
    exact (bestObs_fold d _ none).1.mpr ⟨rfl, fun p hp => by
      have := List.mem_filter.mp hp
      exact h p this.1 (by simpa using this.2)⟩
  unfold specValue
  rw [hnone]

theorem specValue_exact {st : List Point} {a d : Nat} (hinv : KeyInv st)
    {p₀ : Point} (hp₀ : p₀ ∈ st) (ha : p₀.acct = a) (hd : p₀.date = d) :
    specValue st a d = p₀.bal := by
  have hp₀f : p₀ ∈ st.filter (fun p => p.acct == a) :=
    List.mem_filter.mpr ⟨hp₀, by simp [ha]⟩
  obtain ⟨hnone_iff, hsome⟩ := bestObs_fold d (st.filter fun p => p.acct == a) none
  cases hq : (st.filter fun p => p.acct == a).foldl (bestObs d) none with
  | none =>
    exfalso
    exact (hnone_iff.mp hq).2 p₀ hp₀f (by rw [hd])
  | some q =>
    obtain ⟨hmem, hmax, _⟩ := hsome q hq
    rcases hmem with ⟨hqf, hqd⟩ | habs
    · have hqst := List.mem_filter.mp hqf
      have hqa : q.acct = a := by simpa using hqst.2
      have hple : p₀.date ≤ q.date := hmax p₀ hp₀f (le_of_eq hd)
      have hqdate : q.date = d := le_antisymm hqd (hd ▸ hple)
      have heq : q = p₀ :=
        keyInv_unique hinv hqst.1 hp₀ (by rw [hqa, ha]) (by rw [hqdate, hd])
      unfold specValue latestLE
      rw [hq]
      show q.bal = p₀.bal
      rw [heq]
    · exact absurd habs (by simp)

theorem foldl_congr_mem {α β : Type} {f g : β → α → β} :
    ∀ {l : List α} {b : β}, (∀ acc, ∀ x ∈ l, f acc x = g acc x) →
      l.foldl f b = l.foldl g b := by
  intro l
  induction l with
  | nil => intro b _; rfl
  | cons x xs ih =>
    intro b h
    rw [List.foldl_cons, List.foldl_cons, h b x (by simp)]
    exact ih fun acc y hy => h acc y (by simp [hy])

theorem specValue_stable {st : List Point} {a : Nat} {lo hi : Nat} (hlohi : lo ≤ hi)
    (hgap : ∀ p ∈ st, p.acct = a → ¬(lo < p.date ∧ p.date ≤ hi)) :
    specValue st a hi = specValue st a lo := by
  unfold specValue latestLE
  have h : (st.filter fun p => p.acct == a).foldl (bestObs hi) none =
      (st.filter fun p => p.acct == a).foldl (bestObs lo) none := by
    apply foldl_congr_mem
    intro acc x hx
    have hxm := List.mem_filter.mp hx
    have hxa : x.acct = a := by simpa using hxm.2
    unfold bestObs
    by_cases hlo : x.date ≤ lo
    · rw [if_pos hlo, if_pos (le_trans hlo hlohi)]
    · rw [if_neg hlo, if_neg fun hhi => hgap x hxm.1 hxa ⟨by omega, hhi⟩]
  rw [h]

theorem keyInv_filter_len {st : List Point} (hinv : KeyInv st) (a d : Nat) :
    (st.filter fun p => p.acct == a && p.date == d).length ≤ 1 := by
  induction st with
  | nil => simp
  | cons x xs ih =>
    obtain ⟨hx, hxs⟩ := List.pairwise_cons.mp hinv
    rw [List.filter_cons]
    by_cases h : (x.acct == a && x.date == d) = true
    · rw [if_pos h]
      simp only [Bool.and_eq_true, beq_iff_eq] at h
      have hrest : xs.filter (fun p => p.acct == a && p.date == d) = [] := by
        rw [List.filter_eq_nil_iff]
        intro r hr hb
        simp only [Bool.and_eq_true, beq_iff_eq] at hb
        exact hx r hr ⟨by rw [h.1, hb.1], by rw [h.2, hb.2]⟩
      rw [hrest]
      simp
    · rw [if_neg h]
      exact ih hxs

theorem dictLookup_none {st : List Point} {a d : Nat}
    (hnone : ∀ p ∈ st, ¬(p.acct = a ∧ p.date = d)) :
    dictLookup st a d = none := by
  unfold dictLookup
  have hperm : ((sortByDate st).filter fun p => p.acct == a && p.date == d).Perm
      (st.filter fun p => p.acct == a && p.date == d) :=
    (List.perm_insertionSort _ _).filter _
  have hnil : st.filter (fun p => p.acct == a && p.date == d) = [] := by
    rw [List.filter_eq_nil_iff]
    intro p hp hb
    simp only [Bool.and_eq_true, beq_iff_eq] at hb
    exact hnone p hp hb
  have h0 : (sortByDate st).filter (fun p => p.acct == a && p.date == d) = [] := by
    apply List.Perm.eq_nil
    rw [hnil] at hperm
    exact hperm
  rw [h0]
  rfl

theorem dictLookup_some {st : List Point} {a d : Nat} (hinv : KeyInv st)
    {p₀ : Point} (hp₀ : p₀ ∈ st) (ha : p₀.acct = a) (hd : p₀.date = d) :
    dictLookup st a d = some p₀.bal := by
  unfold dictLookup
  have hperm : ((sortByDate st).filter fun p => p.acct == a && p.date == d).Perm
      (st.filter fun p => p.acct == a && p.date == d) :=
    (List.perm_insertionSort _ _).filter _
  have hlen := keyInv_filter_len hinv a d
  have hmem : p₀ ∈ st.filter (fun p => p.acct == a && p.date == d) :=
    List.mem_filter.mpr ⟨hp₀, by simp [ha, hd]⟩
  have hsingle : st.filter (fun p => p.acct == a && p.date == d) = [p₀] := by
    cases hl : st.filter (fun p => p.acct == a && p.date == d) with
    | nil => rw [hl] at hmem; simp at hmem
    | cons x xs =>
      rw [hl] at hmem hlen
      cases xs with
      | nil =>
        rcases List.mem_cons.mp hmem with rfl | habs
        · rfl
        · simp at habs
      | cons y ys => simp at hlen
  have h1 : (sortByDate st).filter (fun p => p.acct == a && p.date == d) = [p₀] := by
    apply List.perm_singleton.mp
    rw [hsingle] at hperm
    exact hperm
  rw [h1]
  rfl

theorem dictLookup_mem {st : List Point} {a d : Nat} {b : Int}
    (h : dictLookup st a d = some b) :
    ∃ p ∈ st, p.acct = a ∧ p.date = d ∧ p.bal = b := by
  unfold dictLookup at h
  cases hl : ((sortByDate st).filter fun p => p.acct == a && p.date == d).getLast? with
  | none => rw [hl] at h; exact absurd h (by simp)
  | some x =>
    rw [hl] at h
    injection h with hb
    have hxmem := List.mem_of_mem_getLast? (by rw [hl]; exact rfl)
    have hxf := List.mem_filter.mp hxmem
    have hxst : x ∈ st := ((List.perm_insertionSort _ _).mem_iff).mp hxf.1
    have hxk := hxf.2
    simp only [Bool.and_eq_true, beq_iff_eq] at hxk
    exact ⟨x, hxst, hxk.1, hxk.2, hb⟩

theorem sortedDates_sorted (st : List Point) : (sortedDates st).Pairwise (· < ·) := by
  have hs : List.Sorted (· ≤ ·) (sortedDates st) := List.sorted_insertionSort _ _
  have hn : (sortedDates st).Nodup :=
    ((List.perm_insertionSort _ _).nodup_iff).mpr (List.nodup_dedup _)
  exact hs.lt_of_le hn

theorem carry_spec (st : List Point) (a : Nat) (hinv : KeyInv st) :
    ∀ (ds : List Nat) (B : Option Nat) (last : Int),
      ds.Pairwise (· < ·) →
      (∀ b, B = some b → ∀ d ∈ ds, b < d) →
      (∀ p ∈ st, p.acct = a → ∀ d ∈ ds, p.date ≤ d →
        (∃ b, B = some b ∧ p.date ≤ b) ∨ p.date ∈ ds) →
      (last = match B with | none => 0 | some b => specValue st a b) →
      carry (dictLookup st a) ds last = ds.map (specValue st a) := by
  intro ds
  induction ds with
  | nil => intro B last _ _ _ _; rfl
  | cons d0 dtail ih =>
    intro B last hsort hB hwin hlast
    have hsort0 : ∀ d' ∈ dtail, d0 < d' := (List.pairwise_cons.mp hsort).1
    have hsorttail := (List.pairwise_cons.mp hsort).2
    have hv : (dictLookup st a d0).getD last = specValue st a d0 := by
      cases hq : dictLookup st a d0 with
      | some bal =>
        obtain ⟨p₀, hp₀, ha, hd, hbal⟩ := dictLookup_mem hq
        rw [Option.getD_some, specValue_exact hinv hp₀ ha hd, hbal]
      | none =>
        have hnoexact : ∀ p ∈ st, ¬(p.acct = a ∧ p.date = d0) := by
          intro p hp hk
          have := dictLookup_some hinv hp hk.1 hk.2
          rw [hq] at this
          exact absurd this (by simp)
        rw [Option.getD_none]
        cases B with
        | none =>
          have hzero : ∀ p ∈ st, p.acct = a → ¬p.date ≤ d0 := by
            intro p hp hpa hle
            rcases hwin p hp hpa d0 (by simp) hle with ⟨b, hb, _⟩ | hmem
            · exact absurd hb (by simp)
            · rcases List.mem_cons.mp hmem with he | hmem'
              · exact hnoexact p hp ⟨hpa, he⟩
              · have := hsort0 _ hmem'
                omega
          rw [specValue_eq_zero hzero, hlast]
        | some b =>
          have hb0 : b < d0 := hB b rfl d0 (by simp)
          have hgap : ∀ p ∈ st, p.acct = a → ¬(b < p.date ∧ p.date ≤ d0) := by
            rintro p hp hpa ⟨h1, h2⟩
            rcases hwin p hp hpa d0 (by simp) h2 with ⟨b', hb', hle⟩ | hmem
            · injection hb' with e
              omega
            · rcases List.mem_cons.mp hmem with he | hmem'
              · exact hnoexact p hp ⟨hpa, he⟩
              · have := hsort0 _ hmem'
                omega
          rw [specValue_stable (le_of_lt hb0) hgap, hlast]
    show (dictLookup st a d0).getD last ::
        carry (dictLookup st a) dtail ((dictLookup st a d0).getD last) = _
    rw [List.map_cons, hv]
    congr 1
    apply ih (some d0) (specValue st a d0) hsorttail
    · intro b hb d hd
      injection hb with e
      rw [← e]
      exact hsort0 d hd
    · intro p hp hpa d hd hle
      rcases hwin p hp hpa d (by simp [hd]) hle with ⟨b, hb, hpb⟩ | hmem
      · left
        refine ⟨d0, rfl, ?_⟩
        have := hB b hb d0 (by simp)
        omega
      · rcases List.mem_cons.mp hmem with he | hmem'
        · left
          exact ⟨d0, rfl, le_of_eq he⟩
        · right
          exact hmem'
    · rfl

/-- Claim C1: `build_stacked_series` returns as labels the ascending
list of the distinct dates occurring in any account's observations, and
for each requested account a dataset aligned with the labels whose
entry at a label is the balance of that account's latest observation on
or before that label's date, or 0 when there is none (carry-forward
starts at 0, never backfills, and an account without observations gets
an all-zero series); on the spec's example store the labels are the
three dates in order with series [100, 100, 300] and [0, 50, 50]. -/
theorem build_stacked_series_correct (st : List Point) (accs : List Nat)
    (hinv : KeyInv st) :
    (build_stacked_series st accs).1.Pairwise (· < ·) ∧
    (∀ d, d ∈ (build_stacked_series st accs).1 ↔ ∃ p ∈ st, p.date = d) ∧
    (build_stacked_series st accs).2 =
      accs.map fun a => (build_stacked_series st accs).1.map (specValue st a) := by
  refine ⟨sortedDates_sorted st, fun d => mem_sortedDates, ?_⟩
  show accs.map (fun a => carry (dictLookup st a) (sortedDates st) 0) = _
  apply List.map_congr_left
  intro a _
  apply carry_spec st a hinv (sortedDates st) none 0 (sortedDates_sorted st)
  · intro b hb
    exact absurd hb (by simp)
  · intro p hp hpa d hd hle
    exact Or.inr (mem_sortedDates.mpr ⟨p, hp, rfl⟩)
  · rfl

/-- Witness for C1 on the spec's example: account 1 observes 100 on
2024-01-01 and 300 on 2024-03-01, account 2 observes 50 on 2024-02-01. -/
theorem build_stacked_series_correct_witness :
    KeyInv [⟨1, 20240101, 100, 0⟩, ⟨1, 20240301, 300, 1⟩, ⟨2, 20240201, 50, 2⟩] ∧
    (build_stacked_series
        [⟨1, 20240101, 100, 0⟩, ⟨1, 20240301, 300, 1⟩, ⟨2, 20240201, 50, 2⟩]
        [1, 2]).2 =
      [1, 2].map (fun a =>
        (build_stacked_series
          [⟨1, 20240101, 100, 0⟩, ⟨1, 20240301, 300, 1⟩, ⟨2, 20240201, 50, 2⟩]
          [1, 2]).1.map
          (specValue
            [⟨1, 20240101, 100, 0⟩, ⟨1, 20240301, 300, 1⟩, ⟨2, 20240201, 50, 2⟩] a)) ∧
    build_stacked_series
        [⟨1, 20240101, 100, 0⟩, ⟨1, 20240301, 300, 1⟩, ⟨2, 20240201, 50, 2⟩]
        [1, 2] =
      ([20240101, 20240201, 20240301], [[100, 100, 300], [0, 50, 50]]) :=
  ⟨by decide,
    (build_stacked_series_correct
      [⟨1, 20240101, 100, 0⟩, ⟨1, 20240301, 300, 1⟩, ⟨2, 20240201, 50, 2⟩]
      [1, 2] (by decide)).2.2,
    by decide⟩

/-! ## Claim C8: row-at-a-time CSV import -/

theorem upsertCounted_stats (db : DBState) (st : ImportStats) (aid d : Nat) (bal : Int) :
    (upsertCounted db st aid d bal).2.skipped_rows = st.skipped_rows ∧
    (upsertCounted db st aid d bal).2.rows_total = st.rows_total ∧
    (upsertCounted db st aid d bal).2.created_accounts = st.created_accounts ∧
    (upsertCounted db st aid d bal).2.inserted_points +
      (upsertCounted db st aid d bal).2.updated_points =
      st.inserted_points + st.updated_points + 1 ∧
    (upsertCounted db st aid d bal).1.accounts = db.accounts := by
  unfold upsertCounted
  cases findPoint db.points aid d with
  | some p =>
    dsimp only
    exact ⟨rfl, rfl, rfl, by omega, rfl⟩
  | none =>
    dsimp only
    exact ⟨rfl, rfl, rfl, by omega, rfl⟩

theorem import_step_cases (db : DBState) (st : ImportStats) (raw : Row) :
    (rowBad raw →
      import_step (db, st) raw =
        (db, { st with rows_total := st.rows_total + 1,
                       skipped_rows := st.skipped_rows + 1 })) ∧
    (¬rowBad raw →
      (import_step (db, st) raw).2.skipped_rows = st.skipped_rows ∧
      (import_step (db, st) raw).2.rows_total = st.rows_total + 1 ∧
      (import_step (db, st) raw).2.inserted_points +
        (import_step (db, st) raw).2.updated_points =
        st.inserted_points + st.updated_points + 1 ∧
      ((∃ ac ∈ db.accounts, ac.name = importName raw) →
        (import_step (db, st) raw).1.accounts = db.accounts ∧
        (import_step (db, st) raw).2.created_accounts = st.created_accounts) ∧
      ((¬∃ ac ∈ db.accounts, ac.name = importName raw) →
        (import_step (db, st) raw).1.accounts =
          db.accounts ++ [⟨db.nextId, importName raw⟩] ∧
        (import_step (db, st) raw).2.created_accounts = st.created_accounts + 1) ∧
      (∀ dt bal, parse_date_ddmmyyyy (pyStripS raw.date) = some dt →
        parse_decimal (pyStripS raw.balance) = some bal →
        ∃ aid, (import_step (db, st) raw).1.points =
          upsert db.points aid (ymdKey dt) (decCents bal) 0)) := by
  constructor
  · intro hbad
    cases hd : parse_date_ddmmyyyy (pyStripS raw.date) with
    | none =>
      simp only [import_step, hd]
    | some dt =>
      cases hb : parse_decimal (pyStripS raw.balance) with
      | none =>
        simp only [import_step, hd, hb]
      | some bal =>
        have hname : importName raw = "" := by
          rcases hbad with h | h | h
          · rw [hd] at h; exact absurd h (by simp)
          · rw [hb] at h; exact absurd h (by simp)
          · exact h
        simp only [import_step, hd, hb]
        rw [if_pos hname]
  · intro hbad
    have hd' : parse_date_ddmmyyyy (pyStripS raw.date) ≠ none :=
      fun h => hbad (Or.inl h)
    have hb' : parse_decimal (pyStripS raw.balance) ≠ none :=
      fun h => hbad (Or.inr (Or.inl h))
    have hname : importName raw ≠ "" := fun h => hbad (Or.inr (Or.inr h))
    obtain ⟨dt, hd⟩ := Option.ne_none_iff_exists'.mp hd'
    obtain ⟨bal, hb⟩ := Option.ne_none_iff_exists'.mp hb'
    simp only [import_step, hd, hb]
    rw [if_neg hname]
    cases hf : db.accounts.find? (fun ac => ac.name == importName raw) with
    | some ac =>
      dsimp only
      obtain ⟨hs, hr, hc, hsum, hacc⟩ :=
        upsertCounted_stats db { st with rows_total := st.rows_total + 1 }
          ac.id (ymdKey dt) (decCents bal)
      dsimp only at hs hr hc hsum hacc
      refine ⟨hs, hr, hsum, fun _ => ⟨hacc, hc⟩, ?_, ?_⟩
      · intro hne
        exfalso
        exact hne ⟨ac, List.mem_of_find?_eq_some hf, by
          have := List.find?_some hf
          simpa using this⟩
      · intro dt' bal' hdt' hbal'
        injection hdt' with e1
        injection hbal' with e2
        rw [← e1, ← e2]
        exact ⟨ac.id, upsertCounted_points _ _ _ _ _⟩
    | none =>
      dsimp only
      obtain ⟨hs, hr, hc, hsum, hacc⟩ :=
        upsertCounted_stats ⟨db.accounts ++ [⟨db.nextId, importName raw⟩], db.points, db.nextId + 1⟩
          { st with rows_total := st.rows_total + 1,
                    created_accounts := st.created_accounts + 1 }
          db.nextId (ymdKey dt) (decCents bal)
      dsimp only at hs hr hc hsum hacc
      refine ⟨hs, hr, hsum, ?_, fun _ => ⟨hacc, hc⟩, ?_⟩
      · rintro ⟨ac, hmem, hacname⟩
        exfalso
        have := List.find?_eq_none.mp hf ac hmem
        rw [hacname] at this
        simp at this
      · intro dt' bal' hdt' hbal'
        injection hdt' with e1
        injection hbal' with e2
        rw [← e1, ← e2]
        exact ⟨db.nextId, upsertCounted_points _ _ _ _ _⟩

theorem import_step_sums (db : DBState) (st : ImportStats) (raw : Row) :
    (import_step (db, st) raw).2.rows_total = st.rows_total + 1 ∧
    (import_step (db, st) raw).2.inserted_points +
      (import_step (db, st) raw).2.updated_points +
      (import_step (db, st) raw).2.skipped_rows =
      st.inserted_points + st.updated_points + st.skipped_rows + 1 := by
  by_cases hbad : rowBad raw
  · rw [(import_step_cases db st raw).1 hbad]
    exact ⟨rfl, rfl⟩
  · obtain ⟨hskip, hrows, hsum, _⟩ := (import_step_cases db st raw).2 hbad
    exact ⟨hrows, by omega⟩

theorem import_fold_sums : ∀ (rows : List Row) (s : DBState × ImportStats),
    (rows.foldl import_step s).2.rows_total = s.2.rows_total + rows.length ∧
    (rows.foldl import_step s).2.inserted_points +
      (rows.foldl import_step s).2.updated_points +
      (rows.foldl import_step s).2.skipped_rows =
      s.2.inserted_points + s.2.updated_points + s.2.skipped_rows + rows.length := by
  intro rows
  induction rows with
  | nil => intro s; exact ⟨by simp, by simp⟩
  | cons r rs ih =>
    intro s
    obtain ⟨db, st⟩ := s
    rw [List.foldl_cons]
    obtain ⟨h1, h2⟩ := ih (import_step (db, st) r)
    obtain ⟨g1, g2⟩ := import_step_sums db st r
    dsimp only
    rw [List.length_cons]
    exact ⟨by omega, by omega⟩

/-- Claim C8: the import processes rows independently - each row either
succeeds (adding one inserted or one updated point, and creating the
account on its first mention) or, exactly when its account name is
empty or its date or amount fails to parse, is skipped without touching
the store and without aborting the batch; the returned counters satisfy
rows_total = number of rows and inserted + updated + skipped =
rows_total, so every processed row is counted in exactly one of
inserted_points, updated_points or skipped_rows. -/
theorem import_csv_spec :
    (∀ (db : DBState) (rows : List Row),
      (import_csv db rows).2.rows_total = rows.length ∧
      (import_csv db rows).2.inserted_points + (import_csv db rows).2.updated_points +
        (import_csv db rows).2.skipped_rows = rows.length) ∧
    (∀ (db : DBState) (st : ImportStats) (raw : Row), rowBad raw →
      import_step (db, st) raw =
        (db, { st with rows_total := st.rows_total + 1,
                       skipped_rows := st.skipped_rows + 1 })) ∧
    (∀ (db : DBState) (st : ImportStats) (raw : Row), ¬rowBad raw →
      (import_step (db, st) raw).2.skipped_rows = st.skipped_rows ∧
      (import_step (db, st) raw).2.inserted_points +
        (import_step (db, st) raw).2.updated_points =
        st.inserted_points + st.updated_points + 1 ∧
      ((∃ ac ∈ db.accounts, ac.name = importName raw) →
        (import_step (db, st) raw).1.accounts = db.accounts ∧
        (import_step (db, st) raw).2.created_accounts = st.created_accounts) ∧
      ((¬∃ ac ∈ db.accounts, ac.name = importName raw) →
        (import_step (db, st) raw).1.accounts =
          db.accounts ++ [⟨db.nextId, importName raw⟩] ∧
        (import_step (db, st) raw).2.created_accounts = st.created_accounts + 1) ∧
      (∀ dt bal, parse_date_ddmmyyyy (pyStripS raw.date) = some dt →
        parse_decimal (pyStripS raw.balance) = some bal →
        ∃ aid, (import_step (db, st) raw).1.points =
          upsert db.points aid (ymdKey dt) (decCents bal) 0)) := by
  refine ⟨?_, ?_, ?_⟩
  · intro db rows
    obtain ⟨h1, h2⟩ := import_fold_sums rows (db, ⟨0, 0, 0, 0, 0⟩)
    exact ⟨by simpa using h1, by simpa using h2⟩
  · intro db st raw hbad
    exact (import_step_cases db st raw).1 hbad
  · intro db st raw hok
    obtain ⟨hs, _, hsum, hex, hnew, hpts⟩ := (import_step_cases db st raw).2 hok
    exact ⟨hs, hsum, hex, hnew, hpts⟩

/-- Witness for C8: a malformed-date row is skipped with the counters
bumped, leaving the store unchanged. -/
theorem import_csv_spec_witness :
    rowBad ⟨"not-a-date", "Giro", "1"⟩ ∧
    import_step (⟨[], [], 1⟩, ⟨0, 0, 0, 0, 0⟩) ⟨"not-a-date", "Giro", "1"⟩ =
      (⟨[], [], 1⟩, ⟨1, 0, 0, 0, 1⟩) := by
  refine ⟨by decide, ?_⟩
  have h := import_csv_spec.2.1 ⟨[], [], 1⟩ ⟨0, 0, 0, 0, 0⟩
    ⟨"not-a-date", "Giro", "1"⟩ (by decide)
  exact h
